import Mathlib

/-! Log collector and log server: a verification development.

Shallow embedding of

* `log-collector/main.go`: `parseMessage`, `mapSeverity`, the three regular
  expressions and the blacklist;
* `log-server/main.go`: `FileStorage` with `NewFileStorage`, `Save`,
  `matchQuery`, `Query`, `Count`, the two group-by methods, and
  `ingestHandler`.

Conventions of the embedding.

* A Go `string` is modelled by a Lean `String`, that is by its sequence of
  Unicode code points.  This covers the Go strings that are valid UTF-8, which
  is what `json.Unmarshal` hands to `parseMessage` and to `ingestHandler`.
  Substring search over valid UTF-8 bytes coincides with substring search over
  code points.
* `time.Time` is modelled by the instant it denotes, an `Int`; `Before` is `<`.
  The clock (`time.Now().UTC()`) is an explicit argument.
* Functions of the Go standard library whose tables are not part of the
  repository (`unicode.ToLower`, `strings.EqualFold`, `sort.Slice`,
  `json.Marshal`, `json.Decoder`) are explicit parameters; what is assumed
  of them is stated as a hypothesis where it is used.  `goSlice` models the
  sorting procedure that stands behind `sort.Slice` since Go 1.19.
* The mutex of `FileStorage` serialises the operations; every operation is
  modelled as one atomic step on the state.
-/

namespace LogCollector

/-! ## Regular expressions (`regexp`, RE2 syntax, leftmost-first matching)

The syntax tree covers the fragment used by the three patterns of
`main.go`: literals, greedy repetition of a character class, one capture
group, concatenation and the anchor `^`. -/

/-- Regular expressions of the fragment used by the collector. -/
inductive Regex where
  /-- the anchor `^`: beginning of text -/
  | bol : Regex
  /-- a literal character -/
  | lit : Char → Regex
  /-- greedy `[cls]+` -/
  | plus : (Char → Bool) → Regex
  /-- greedy `[cls]*` -/
  | star : (Char → Bool) → Regex
  /-- capture group `( ... )` -/
  | cap : Regex → Regex
  /-- concatenation -/
  | seq : Regex → Regex → Regex

/-- Perl class `\s` of Go regexp: `[\t\n\f\r ]`. -/
def isSpace (c : Char) : Bool :=
  c == '\t' || c == '\n' || c == Char.ofNat 12 || c == '\r' || c == ' '

/-- Perl class `\d` of Go regexp: `[0-9]`. -/
def isDigit (c : Char) : Bool :=
  decide ('0' ≤ c) && decide (c ≤ '9')

/-- The class `[A-Za-z0-9_\-]`. -/
def isWordChar (c : Char) : Bool :=
  (decide ('A' ≤ c) && decide (c ≤ 'Z')) || (decide ('a' ≤ c) && decide (c ≤ 'z')) ||
    (decide ('0' ≤ c) && decide (c ≤ '9')) || c == '_' || c == '-'

/-- The class `[^\s]`. -/
def isNonSpace (c : Char) : Bool := !isSpace c

/-- State of the backtracking matcher: the number of characters of the text
before the current position, the text from the current position on, and the
text of capture group 1 if it has been closed. -/
structure MatchState where
  pos : Nat
  rest : List Char
  group : Option (List Char)

/-- Greedy repetition of a character class: consume as many characters as
possible, and give characters back one at a time while the continuation
fails. -/
def rep {R : Type} (p : Char → Bool) (k : Nat → List Char → Option R) :
    Nat → List Char → Option R
  | pos, [] => k pos []
  | pos, c :: cs =>
    if p c then
      match rep p k (pos + 1) cs with
      | some r => some r
      | none => k pos (c :: cs)
    else k pos (c :: cs)

/-- Backtracking matcher in continuation-passing style: `run re st k` is the
first success, in priority order, of `re` at `st` followed by `k`. -/
def Regex.run {R : Type} : Regex → MatchState → (MatchState → Option R) → Option R
  | .bol, st, k => if st.pos = 0 then k st else none
  | .lit c, st, k =>
    match st.rest with
    | x :: xs => if x = c then k { st with pos := st.pos + 1, rest := xs } else none
    | [] => none
  | .plus p, st, k =>
    match st.rest with
    | x :: xs =>
      if p x then
        rep p (fun n r => k { st with pos := n, rest := r }) (st.pos + 1) xs
      else none
    | [] => none
  | .star p, st, k => rep p (fun n r => k { st with pos := n, rest := r }) st.pos st.rest
  | .cap r, st, k =>
    r.run st (fun st1 => k { st1 with group := some (st.rest.take (st1.pos - st.pos)) })
  | .seq a b, st, k => a.run st (fun st1 => b.run st1 k)

/-- A match of `re` starting exactly at position `pos`, where `s` is the text
from `pos` on: the whole match and the text of group 1. -/
def matchAt (re : Regex) (pos : Nat) (s : List Char) : Option (List String) :=
  re.run { pos := pos, rest := s, group := none }
    (fun st1 => some [String.mk (s.take (st1.pos - pos)), String.mk (st1.group.getD [])])

/-- Leftmost search: try the start positions from left to right. -/
def search (re : Regex) : Nat → List Char → List String
  | pos, [] => (matchAt re pos []).getD []
  | pos, c :: cs =>
    match matchAt re pos (c :: cs) with
    | some m => m
    | none => search re (pos + 1) cs

/-- `(*Regexp).FindStringSubmatch`: the leftmost match and its submatch, or
the empty slice when there is no match. -/
def FindStringSubmatch (re : Regex) (s : String) : List String :=
  search re 0 s.data

/-- `by\s+([A-Za-z0-9_\-]+)` -/
def wordUserRegex : Regex :=
  .seq (.lit 'b') (.seq (.lit 'y') (.seq (.plus isSpace) (.cap (.plus isWordChar))))

/-- `^<\d+>\s*([^\s]+)` -/
def hostRegex : Regex :=
  .seq .bol (.seq (.lit '<') (.seq (.plus isDigit) (.seq (.lit '>')
    (.seq (.star isSpace) (.cap (.plus isNonSpace))))))

/-- `^<(\d+)>` -/
def severityRegex : Regex :=
  .seq .bol (.seq (.lit '<') (.seq (.cap (.plus isDigit)) (.lit '>')))

/-! ## Strings -/

/-- Test whether the list `sub` occurs in `s` as a contiguous block. -/
def containsList (sub : List Char) : List Char → Bool
  | [] => sub.isEmpty
  | c :: cs => sub.isPrefixOf (c :: cs) || containsList sub cs

/-- `strings.Contains(s, substr)`. -/
def Contains (s substr : String) : Bool := containsList substr.data s.data

/-- Lower-casing of an ASCII letter (`c += 'a' - 'A'`). -/
def asciiLower (c : Char) : Char :=
  if 'A' ≤ c ∧ c ≤ 'Z' then Char.ofNat (c.toNat + 32) else c

/-- `strings.ToLower(s)`: the ASCII fast path for strings that hold ASCII
characters only, and `strings.Map(unicode.ToLower, s)` otherwise.  The table
`unicode.ToLower` is the parameter `lower`. -/
def ToLower (lower : Char → Char) (s : String) : String :=
  if s.data.all (fun c => decide (c.toNat < 128)) then String.mk (s.data.map asciiLower)
  else String.mk (s.data.map lower)

/-! ## The parser -/

/-- The record built by `parseMessage`. -/
structure Parsed where
  Timestamp : Int
  EventCategory : String
  Username : String
  Hostname : String
  Severity : String
  RawMessage : String
  IsBlacklisted : Bool
  deriving DecidableEq, Repr

/-- The map `blacklist` of `main.go`, as its list of entries.  Go ranges over
a map in an unspecified order; the loop of `parseMessage` only ever sets the
flag, so its result does not depend on the order (`foldl_blacklist_flag`). -/
def blacklist : List (String × Bool) :=
  [("baduser", true), ("192.0.2.1", true)]

/-- Map lookup `blacklist[k]`: the stored value, `false` for an absent key. -/
def blacklistAt (k : String) : Bool := (blacklist.lookup k).getD false

/-- `mapSeverity` of `main.go`. -/
def mapSeverity (code : String) : String :=
  if code = "86" then "INFO"
  else if code = "134" then "WARN"
  else "INFO"

/-- `parseMessage` of `main.go`; `lower` is `unicode.ToLower` and `now` is
the value of `time.Now().UTC()`. -/
def parseMessage (lower : Char → Char) (now : Int) (s : String) : Parsed :=
  let p : Parsed :=
    { Timestamp := 0, EventCategory := "", Username := "", Hostname := "", Severity := "",
      RawMessage := s, IsBlacklisted := false }
  let p := { p with Timestamp := now }
  let p :=
    let m := FindStringSubmatch severityRegex s
    if m.length > 1 then { p with Severity := mapSeverity (m.getD 1 "") } else p
  let p :=
    let m := FindStringSubmatch hostRegex s
    if m.length > 1 then { p with Hostname := m.getD 1 "" } else p
  let p :=
    let m := FindStringSubmatch wordUserRegex s
    if m.length > 1 then { p with Username := m.getD 1 "" } else p
  let p :=
    if Contains (ToLower lower s) "login" || Contains (ToLower lower s) "logged on" ||
        Contains (ToLower lower s) "session opened" then
      { p with EventCategory := "login.audit" }
    else if Contains (ToLower lower s) "logout" || Contains (ToLower lower s) "session closed" ||
        Contains (ToLower lower s) "terminated" then
      { p with EventCategory := "logout.audit" }
    else { p with EventCategory := "event" }
  let p :=
    if p.Username ≠ "" && blacklistAt (ToLower lower p.Username) then
      { p with IsBlacklisted := true }
    else p
  (blacklist.map Prod.fst).foldl
    (fun q ip => if Contains s ip then { q with IsBlacklisted := true } else q) p

/-! ## Auxiliary notions used to state the properties of the parser -/

/-- One of the login keywords occurs in `t`. -/
def MentionsLogin (t : String) : Prop :=
  "login".data <:+: t.data ∨ "logged on".data <:+: t.data ∨ "session opened".data <:+: t.data

/-- One of the logout keywords occurs in `t`. -/
def MentionsLogout (t : String) : Prop :=
  "logout".data <:+: t.data ∨ "session closed".data <:+: t.data ∨ "terminated".data <:+: t.data

/-- The digits of a leading marker `<digits>` and the text after it. -/
def leadingMarker : List Char → Option (List Char × List Char)
  | [] => none
  | x :: xs =>
    if x = '<' then
      if xs.takeWhile isDigit = [] then none
      else
        match xs.dropWhile isDigit with
        | [] => none
        | y :: r => if y = '>' then some (xs.takeWhile isDigit, r) else none
    else none

/-- What `by\s+([A-Za-z0-9_\-]+)` captures when it matches at the very start
of a text. -/
def byToken : List Char → Option (List Char)
  | x :: y :: r =>
    if x = 'b' ∧ y = 'y' then
      if r.takeWhile isSpace = [] then none
      else if (r.dropWhile isSpace).takeWhile isWordChar = [] then none
      else some ((r.dropWhile isSpace).takeWhile isWordChar)
    else none
  | _ => none

/-- The capture of the leftmost start position at which `byToken` succeeds. -/
def firstByToken : List Char → Option (List Char)
  | [] => none
  | c :: cs =>
    match byToken (c :: cs) with
    | some t => some t
    | none => firstByToken cs

/-- The text `l` reads: `pre`, the word `by`, the white space `ws`, the token
`tok`, and `post`. -/
def ByOccurrence (l pre ws tok post : List Char) : Prop :=
  l = pre ++ 'b' :: 'y' :: (ws ++ tok ++ post) ∧ ws ≠ [] ∧ (∀ c ∈ ws, isSpace c = true) ∧
    tok ≠ [] ∧ (∀ c ∈ tok, isWordChar c = true)

/-- The text `l` starts with the marker `<ds>`, `ds` a non-empty digit
string, and goes on with `rest`. -/
def HasMarker (l ds rest : List Char) : Prop :=
  l = '<' :: (ds ++ '>' :: rest) ∧ ds ≠ [] ∧ ∀ c ∈ ds, isDigit c = true

instance (t : String) : Decidable (MentionsLogin t) := by
  unfold MentionsLogin
  infer_instance

instance (t : String) : Decidable (MentionsLogout t) := by
  unfold MentionsLogout
  infer_instance

instance (l ds rest : List Char) : Decidable (HasMarker l ds rest) := by
  unfold HasMarker
  infer_instance

instance (l pre ws tok post : List Char) : Decidable (ByOccurrence l pre ws tok post) := by
  unfold ByOccurrence
  infer_instance

/-- The table `lower` agrees with ASCII lower-casing on ASCII characters, as
`unicode.ToLower` does. -/
def AgreesOnASCII (lower : Char → Char) : Prop :=
  ∀ c : Char, c.toNat < 128 → lower c = asciiLower c

/-- A continuation that rejects every text starting in the class `p`. -/
def RejectsClass {R : Type} (p : Char → Bool) (k : MatchState → Option R) : Prop :=
  ∀ n c cs g, p c = true → k ⟨n, c :: cs, g⟩ = none

end LogCollector

namespace LogServer

/-! ## The storage engine of `log-server/main.go` -/

/-- The record type `LogEntry` of the server. -/
structure LogEntry where
  Timestamp : Int
  EventCategory : String
  Username : String
  Hostname : String
  Severity : String
  RawMessage : String
  IsBlacklisted : Bool
  Meta : List (String × String)
  deriving DecidableEq, Repr

/-- Go `error` values; `nil` is `none` of `Option Error`. -/
abbrev Error := String

/-- The sentinel `io.EOF`. -/
def EOF : Error := "EOF"

/-- File contents. -/
abbrev Bytes := List UInt8

/-- The byte `'\n'`. -/
def newline : UInt8 := 10

/-- The functions of the Go standard library called by the server. -/
structure Lib where
  /-- `strings.EqualFold` -/
  EqualFold : String → String → Bool
  /-- `sort.Slice`, with the comparison of two positions given as a comparison
  of the elements held there -/
  Slice : (LogEntry → LogEntry → Bool) → List LogEntry → List LogEntry
  /-- `json.Marshal` on a `LogEntry` -/
  Marshal : LogEntry → Except Error Bytes
  /-- `(*json.Decoder).Decode` into a fresh `LogEntry`: from the unread part
  of the stream to the decoded record and the part left unread, or to an
  error (`io.EOF` at the end of the stream) -/
  Decode : Bytes → Except Error (LogEntry × Bytes)

/-- The in-memory part of `FileStorage` (the mutex is not modelled). -/
structure FileStorage where
  path : String
  cache : List LogEntry

/-- The file system: the content of the file at a path, if there is one. -/
abbrev Disk := String → Option Bytes

/-- The file system without any file. -/
def Disk.empty : Disk := fun _ => none

/-- Append `data` to the file at `path`, creating it when absent
(`O_CREATE|O_WRONLY|O_APPEND`). -/
def Disk.append (disk : Disk) (path : String) (data : Bytes) : Disk :=
  fun p => if p = path then some ((disk p).getD [] ++ data) else disk p

/-- The decoding loop of `NewFileStorage`; the fuel bounds the number of
iterations. -/
def replay (lib : Lib) : Nat → Bytes → List LogEntry → List LogEntry
  | 0, _, cache => cache
  | fuel + 1, stream, cache =>
    match lib.Decode stream with
    | .ok (e, rest) => replay lib fuel rest (cache ++ [e])
    | .error _ => cache

/-- `NewFileStorage`: `os.Open` fails when there is no file at `path`. -/
def NewFileStorage (lib : Lib) (disk : Disk) (path : String) : FileStorage :=
  match disk path with
  | some content => { path := path, cache := replay lib (content.length + 1) content [] }
  | none => { path := path, cache := [] }

/-- What the operating system answers during one call of `Save`. -/
inductive SaveOutcome where
  /-- `os.OpenFile` returns the error -/
  | openFails (err : Error)
  /-- `f.Write` writes the first `written` bytes and returns the error -/
  | writeFails (written : Nat) (err : Error)
  /-- both calls succeed -/
  | succeeds

/-- The bytes handed to `f.Write`: `append(b, '\n')` with `b, _ :=
json.Marshal(entry)`; `b` is `nil` when `Marshal` returns an error. -/
def saveData (lib : Lib) (entry : LogEntry) : Bytes :=
  (match lib.Marshal entry with
    | .ok b => b
    | .error _ => []) ++ [newline]

/-- `(*FileStorage).Save`: the new store, the new file system and the
returned error. -/
def Save (lib : Lib) (io : SaveOutcome) (s : FileStorage) (disk : Disk) (entry : LogEntry) :
    FileStorage × Disk × Option Error :=
  match io with
  | .openFails err => (s, disk, some err)
  | .writeFails written err =>
    (s, disk.append s.path ((saveData lib entry).take written), some err)
  | .succeeds =>
    ({ s with cache := s.cache ++ [entry] }, disk.append s.path (saveData lib entry), none)

/-- `matchQuery`; the map `params` is given by its list of entries, in the
order in which the loop visits them (`matchQuery_perm`: the order does not
matter). -/
def matchQuery (lib : Lib) (e : LogEntry) : List (String × String) → Bool
  | [] => true
  | (k, v) :: rest =>
    if k = "service" then
      if v ≠ e.EventCategory then false else matchQuery lib e rest
    else if k = "level" then
      if !lib.EqualFold v e.Severity then false else matchQuery lib e rest
    else if k = "username" then
      if v ≠ e.Username then false else matchQuery lib e rest
    else if k = "is.blacklisted" then
      if decide (v = "true") ≠ e.IsBlacklisted then false else matchQuery lib e rest
    else matchQuery lib e rest

/-- The comparison handed to `sort.Slice`: `Timestamp.Before`. -/
def lessTimestamp (a b : LogEntry) : Bool := decide (a.Timestamp < b.Timestamp)

/-- `(*FileStorage).Query`. -/
def Query (lib : Lib) (s : FileStorage) (params : List (String × String)) (limit : Int)
    (sortKey : String) : List LogEntry × Option Error :=
  let res := s.cache.filter (fun e => matchQuery lib e params)
  let res := if sortKey = "timestamp" then lib.Slice lessTimestamp res else res
  let res := if limit > 0 ∧ (res.length : Int) > limit then res.take limit.toNat else res
  (res, none)

/-- `(*FileStorage).Count`. -/
def Count (s : FileStorage) : Int := s.cache.length

/-- A Go `map[string]int`, as its list of entries. -/
abbrev CountMap := List (String × Int)

/-- The statement `m[k]++`. -/
def CountMap.incr : CountMap → String → CountMap
  | [], k => [(k, 1)]
  | (k1, n) :: rest, k => if k1 = k then (k1, n + 1) :: rest else (k1, n) :: CountMap.incr rest k

/-- `(*FileStorage).GroupByCategory`. -/
def GroupByCategory (s : FileStorage) : CountMap :=
  s.cache.foldl (fun m e => m.incr e.EventCategory) []

/-- `(*FileStorage).GroupBySeverity`. -/
def GroupBySeverity (s : FileStorage) : CountMap :=
  s.cache.foldl (fun m e => m.incr e.Severity) []

/-! ### Specification-side notions -/

/-- The condition that one entry `(k, v)` of a filter puts on a record. -/
def Satisfies (lib : Lib) (e : LogEntry) (kv : String × String) : Prop :=
  (kv.1 = "service" → kv.2 = e.EventCategory) ∧
  (kv.1 = "level" → lib.EqualFold kv.2 e.Severity = true) ∧
  (kv.1 = "username" → kv.2 = e.Username) ∧
  (kv.1 = "is.blacklisted" → (kv.2 = "true" ↔ e.IsBlacklisted = true))

instance (lib : Lib) (e : LogEntry) (kv : String × String) : Decidable (Satisfies lib e kv) := by
  unfold Satisfies
  infer_instance

/-- The records of the mirror that satisfy every entry of the filter, in
append order. -/
def matching (lib : Lib) (s : FileStorage) (params : List (String × String)) : List LogEntry :=
  s.cache.filter (fun e => decide (∀ kv ∈ params, Satisfies lib e kv))

/-- The contract of `sort.Slice`: the result is a rearrangement of the
input, and when `less` is a strict weak ordering no element of the result is
`less` than an element before it. -/
def SortContract (lib : Lib) : Prop :=
  ∀ (less : LogEntry → LogEntry → Bool) (l : List LogEntry),
    (lib.Slice less l).Perm l ∧
    ((∀ a b, less a b = true → less b a = false) →
      (∀ a b c, less a b = false → less b c = false → less a c = false) →
      (lib.Slice less l).Pairwise (fun a b => less b a = false))

/-- The decoder skips a newline in front of a value. -/
def SkipsNewline (lib : Lib) : Prop :=
  ∀ stream, lib.Decode (newline :: stream) = lib.Decode stream

/-- The decoder reports `io.EOF` on the exhausted stream. -/
def EOFAtEnd (lib : Lib) : Prop := lib.Decode [] = .error EOF

/-- Decoding the encoding of a record gives the record back and stops
right behind the encoding. -/
def DecodesMarshal (lib : Lib) : Prop :=
  ∀ e b, lib.Marshal e = .ok b →
    ∀ stream, lib.Decode (b ++ newline :: stream) = .ok (e, newline :: stream)

/-- Save the records of `es` one after the other, every call succeeding. -/
def saveAll (lib : Lib) : List LogEntry → FileStorage × Disk → FileStorage × Disk
  | [], sd => sd
  | e :: es, sd =>
    let r := Save lib .succeeds sd.1 sd.2 e
    saveAll lib es (r.1, r.2.1)

/-- The bytes appended by successful saves of the records `es`. -/
def savedBytes (lib : Lib) : List LogEntry → Bytes
  | [] => []
  | e :: es => saveData lib e ++ savedBytes lib es


/-! ### A small instance of the library interface -/

/-- Equality up to the case of ASCII letters: `strings.EqualFold` on ASCII
text. -/
def asciiEqualFold (a b : String) : Bool :=
  a.data.map LogCollector.asciiLower == b.data.map LogCollector.asciiLower

/-- Insertion sort, a sorting procedure that meets `SortContract`. -/
def insertionSlice (less : LogEntry → LogEntry → Bool) (l : List LogEntry) : List LogEntry :=
  l.insertionSort (fun a b => less b a = false)

/-- A login record; instants are in nanoseconds since the Unix epoch. -/
def sampleLogin : LogEntry :=
  { Timestamp := 1700000000000000000, EventCategory := "login.audit", Username := "alice",
    Hostname := "host1", Severity := "INFO", RawMessage := "session opened for user alice",
    IsBlacklisted := false, Meta := [] }

/-- An earlier record of a blacklisted user. -/
def sampleEvent : LogEntry :=
  { Timestamp := 1600000000000000000, EventCategory := "event", Username := "baduser",
    Hostname := "host2", Severity := "WARN", RawMessage := "disk check by baduser",
    IsBlacklisted := true, Meta := [] }

/-- A record whose time stamp is 10000-01-01T00:00:00Z, the first instant
that `Time.MarshalJSON` refuses (year outside of range [0,9999]). -/
def sampleYear10000 : LogEntry :=
  { Timestamp := 253402300800000000000, EventCategory := "event", Username := "",
    Hostname := "", Severity := "", RawMessage := "", IsBlacklisted := false, Meta := [] }

/-- An encoder that knows two records, written as one letter each, and that
refuses time stamps outside the years 0 to 9999 as `json.Marshal` does. -/
def sampleMarshal (e : LogEntry) : Except Error Bytes :=
  if e.Timestamp < -62167219200000000000 ∨ 253402300800000000000 ≤ e.Timestamp then
    .error "Time.MarshalJSON: year outside of range [0,9999]"
  else if e = sampleLogin then .ok [76]
  else if e = sampleEvent then .ok [69]
  else .error "unsupported value"

/-- The decoder for `sampleMarshal`. -/
def sampleDecode : Bytes → Except Error (LogEntry × Bytes)
  | [] => .error EOF
  | b :: rest =>
    if b = newline then sampleDecode rest
    else if b = 76 then .ok (sampleLogin, rest)
    else if b = 69 then .ok (sampleEvent, rest)
    else .error "invalid character"

/-- The instance built from the four functions above. -/
def sampleLib : Lib :=
  { EqualFold := asciiEqualFold, Slice := insertionSlice, Marshal := sampleMarshal,
    Decode := sampleDecode }

/-- The store used in the examples: three records, not in time order. -/
def sampleStore : FileStorage :=
  { path := "/data/logs.jsonl", cache := [sampleLogin, sampleEvent, sampleLogin] }

/-! ### The sorting procedure behind `sort.Slice`

Modelled from the Go standard library (`sort/zsortfunc.go`, Go 1.19 and
later): pattern-defeating quicksort on the index range `[a, b)`, driven by
`Less(i, j)` and `Swap(i, j)` on the slice.  The slice is a list; loops carry
a fuel that bounds their number of rounds. -/

section Pdqsort

variable {α : Type}

/-- The call `data.Less(i, j)` -/
def lessAt (less : α → α → Bool) (data : List α) (i j : Nat) : Bool :=
  match data[i]?, data[j]? with
  | some x, some y => less x y
  | _, _ => false

/-- The call `data.Swap(i, j)` -/
def swapAt (data : List α) (i j : Nat) : List α :=
  match data[i]?, data[j]? with
  | some x, some y => (data.set i y).set j x
  | _, _ => data

/-- Inner loop of insertion sort:
`for j := i; j > a && data.Less(j, j-1); j-- { data.Swap(j, j-1) }`. -/
def insertDown (less : α → α → Bool) (a : Nat) : Nat → List α → List α
  | 0, data => data
  | j + 1, data =>
    if j + 1 > a && lessAt less data (j + 1) j then insertDown less a j (swapAt data (j + 1) j)
    else data

/-- `insertionSort_func(data, a, b)` -/
def insertionSort_func (less : α → α → Bool) (data : List α) (a b : Nat) : List α :=
  (List.range' (a + 1) (b - (a + 1))).foldl (fun d i => insertDown less a i d) data

/-- `siftDown_func(data, lo, hi, first)`, `root` starting at `lo` -/
def siftDown_func (less : α → α → Bool) (hi first : Nat) : Nat → Nat → List α → List α
  | 0, _, data => data
  | fuel + 1, root, data =>
    if 2 * root + 1 ≥ hi then data
    else
      let child :=
        if 2 * root + 2 < hi && lessAt less data (first + (2 * root + 1)) (first + (2 * root + 2))
        then 2 * root + 2 else 2 * root + 1
      if !lessAt less data (first + root) (first + child) then data
      else siftDown_func less hi first fuel child (swapAt data (first + root) (first + child))

/-- `heapSort_func(data, a, b)` -/
def heapSort_func (less : α → α → Bool) (data : List α) (a b : Nat) : List α :=
  let hi := b - a
  let data := (List.range ((hi - 1) / 2 + 1)).reverse.foldl
    (fun d i => siftDown_func less hi a (hi + 1) i d) data
  (List.range hi).reverse.foldl
    (fun d i => siftDown_func less i a (hi + 1) 0 (swapAt d a (a + i))) data

/-- `order2_func`: the two indices in order, and the number of swaps so far -/
def order2_func (less : α → α → Bool) (data : List α) (a b swaps : Nat) : Nat × Nat × Nat :=
  if lessAt less data b a then (b, a, swaps + 1) else (a, b, swaps)

/-- `median_func`: the index of the median of three, and the number of swaps -/
def median_func (less : α → α → Bool) (data : List α) (a b c swaps : Nat) : Nat × Nat :=
  let r1 := order2_func less data a b swaps
  let r2 := order2_func less data r1.2.1 c r1.2.2
  let r3 := order2_func less data r1.1 r2.1 r2.2.2
  (r3.2.1, r3.2.2)

/-- `medianAdjacent_func` -/
def medianAdjacent_func (less : α → α → Bool) (data : List α) (a swaps : Nat) : Nat × Nat :=
  median_func less data (a - 1) a (a + 1) swaps

/-- The type `sortedHint` -/
inductive SortedHint where
  | unknownHint
  | increasingHint
  | decreasingHint
  deriving DecidableEq

/-- `choosePivot_func(data, a, b)` -/
def choosePivot_func (less : α → α → Bool) (data : List α) (a b : Nat) : Nat × SortedHint :=
  let l := b - a
  let i := a + l / 4 * 1
  let j := a + l / 4 * 2
  let k := a + l / 4 * 3
  let r :=
    if l ≥ 8 then
      if l ≥ 50 then
        let ri := medianAdjacent_func less data i 0
        let rj := medianAdjacent_func less data j ri.2
        let rk := medianAdjacent_func less data k rj.2
        median_func less data ri.1 rj.1 rk.1 rk.2
      else median_func less data i j k 0
    else (j, 0)
  if r.2 = 0 then (r.1, .increasingHint)
  else if r.2 = 12 then (r.1, .decreasingHint)
  else (r.1, .unknownHint)

/-- `reverseRange_func(data, a, b)`: `i` and `j` move towards each other -/
def reverseRange_func (data : List α) (a b : Nat) : List α :=
  (List.range ((b - a) / 2)).foldl (fun d n => swapAt d (a + n) (b - 1 - n)) data

/-- The scan `for i <= j && data.Less(i, a) { i++ }` -/
def scanUp (stop : List α → Nat → Bool) (data : List α) (j : Nat) : Nat → Nat → Nat
  | 0, i => i
  | fuel + 1, i => if i ≤ j && !stop data i then scanUp stop data j fuel (i + 1) else i

/-- The scan `for i <= j && !data.Less(j, a) { j-- }` -/
def scanDown (stop : List α → Nat → Bool) (data : List α) (i : Nat) : Nat → Nat
  | 0 => 0
  | j + 1 => if i ≤ j + 1 && !stop data (j + 1) then scanDown stop data i j else j + 1

/-- The main loop of `partition_func`, with the pivot at index `a` -/
def partitionLoop (less : α → α → Bool) (a : Nat) : Nat → List α → Nat → Nat → List α × Nat
  | 0, data, _, j => (data, j)
  | fuel + 1, data, i, j =>
    let i1 := scanUp (fun d x => !lessAt less d x a) data j (j + 1) i
    let j1 := scanDown (fun d x => lessAt less d x a) data i1 j
    if i1 > j1 then (data, j1)
    else partitionLoop less a fuel (swapAt data i1 j1) (i1 + 1) (j1 - 1)

/-- `partition_func(data, a, b, pivot)`: the slice, the new index of the
pivot, and whether the range was already partitioned -/
def partition_func (less : α → α → Bool) (data : List α) (a b pivot : Nat) :
    List α × Nat × Bool :=
  let data := swapAt data a pivot
  let i := scanUp (fun d x => !lessAt less d x a) data (b - 1) b (a + 1)
  let j := scanDown (fun d x => lessAt less d x a) data i (b - 1)
  if i > j then (swapAt data j a, j, true)
  else
    let r := partitionLoop less a b (swapAt data i j) (i + 1) (j - 1)
    (swapAt r.1 r.2 a, r.2, false)

/-- The loop of `partitionEqual_func`, with the pivot at index `a` -/
def partitionEqualLoop (less : α → α → Bool) (a : Nat) : Nat → List α → Nat → Nat → List α × Nat
  | 0, data, i, _ => (data, i)
  | fuel + 1, data, i, j =>
    let i1 := scanUp (fun d x => lessAt less d a x) data j (j + 1) i
    let j1 := scanDown (fun d x => !lessAt less d a x) data i1 j
    if i1 > j1 then (data, i1)
    else partitionEqualLoop less a fuel (swapAt data i1 j1) (i1 + 1) (j1 - 1)

/-- `partitionEqual_func(data, a, b, pivot)` -/
def partitionEqual_func (less : α → α → Bool) (data : List α) (a b pivot : Nat) : List α × Nat :=
  partitionEqualLoop less a b (swapAt data a pivot) (a + 1) (b - 1)

/-- The shift of the smaller element to the left in `partialInsertionSort_func`:
`for j := i - 1; j >= 1; j-- { if !data.Less(j, j-1) { break }; data.Swap(j, j-1) }` -/
def shiftLeft (less : α → α → Bool) : Nat → List α → List α
  | 0, data => data
  | j + 1, data =>
    if !lessAt less data (j + 1) j then data else shiftLeft less j (swapAt data (j + 1) j)

/-- The shift of the greater element to the right:
`for j := i + 1; j < b; j++ { if !data.Less(j, j-1) { break }; data.Swap(j, j-1) }` -/
def shiftRight (less : α → α → Bool) (b : Nat) : Nat → Nat → List α → List α
  | 0, _, data => data
  | fuel + 1, j, data =>
    if j < b then
      if !lessAt less data j (j - 1) then data
      else shiftRight less b fuel (j + 1) (swapAt data j (j - 1))
    else data

/-- `partialInsertionSort_func(data, a, b)`: the slice and whether it is
sorted at the end; `steps` counts the rounds left of `maxSteps = 5` -/
def partialInsertionSort_func (less : α → α → Bool) (a b : Nat) :
    Nat → Nat → List α → List α × Bool
  | 0, _, data => (data, false)
  | steps + 1, i, data =>
    let i1 := scanUp (fun d x => lessAt less d x (x - 1)) data (b - 1) b i
    if i1 = b then (data, true)
    else if b - a < 50 then (data, false)
    else
      let data := swapAt data i1 (i1 - 1)
      let data := if i1 - a ≥ 2 then shiftLeft less (i1 - 1) data else data
      let data := if b - i1 ≥ 2 then shiftRight less b b (i1 + 1) data else data
      partialInsertionSort_func less a b steps i1 data

/-- `bits.Len`: the number of bits needed to write `n` -/
def bitsLen : Nat → Nat → Nat
  | 0, _ => 0
  | fuel + 1, n => if n = 0 then 0 else bitsLen fuel (n / 2) + 1

/-- `(*xorshift).Next` on 64-bit words -/
def xorshiftNext (r : Nat) : Nat :=
  let r := r ^^^ ((r <<< 13) % 2 ^ 64)
  let r := r ^^^ (r >>> 7)
  r ^^^ ((r <<< 17) % 2 ^ 64)

/-- `breakPatterns_func(data, a, b)` -/
def breakPatterns_func (data : List α) (a b : Nat) : List α :=
  let length := b - a
  if length ≥ 8 then
    let modulus := 2 ^ bitsLen 64 length
    let idx := a + (length / 4) * 2 - 1
    let r1 := xorshiftNext length
    let r2 := xorshiftNext r1
    let r3 := xorshiftNext r2
    let other := fun r : Nat => if r % modulus ≥ length then r % modulus - length else r % modulus
    let data := swapAt data (idx - 1 + 0) (a + other r1)
    let data := swapAt data (idx - 1 + 1) (a + other r2)
    swapAt data (idx - 1 + 2) (a + other r3)
  else data

/-- `pdqsort_func(data, a, b, limit)`; the two flags are the local variables
`wasBalanced` and `wasPartitioned` of the loop -/
def pdqsort_func (less : α → α → Bool) :
    Nat → List α → Nat → Nat → Nat → Bool → Bool → List α
  | 0, data, _, _, _, _, _ => data
  | fuel + 1, data, a, b, limit, wasBalanced, wasPartitioned =>
    let length := b - a
    if length ≤ 12 then insertionSort_func less data a b
    else if limit = 0 then heapSort_func less data a b
    else
      let data := if !wasBalanced then breakPatterns_func data a b else data
      let limit := if !wasBalanced then limit - 1 else limit
      let ph := choosePivot_func less data a b
      let data := if ph.2 = .decreasingHint then reverseRange_func data a b else data
      let pivot := if ph.2 = .decreasingHint then (b - 1) - (ph.1 - a) else ph.1
      let hint := if ph.2 = .decreasingHint then SortedHint.increasingHint else ph.2
      let pis :=
        if wasBalanced && wasPartitioned && hint = .increasingHint then
          partialInsertionSort_func less a b 5 (a + 1) data
        else (data, false)
      if pis.2 then pis.1
      else
        let data := pis.1
        if a > 0 && !lessAt less data (a - 1) pivot then
          let r := partitionEqual_func less data a b pivot
          pdqsort_func less fuel r.1 r.2 b limit wasBalanced wasPartitioned
        else
          let r := partition_func less data a b pivot
          let mid := r.2.1
          let leftLen := mid - a
          let rightLen := b - mid
          let balanceThreshold := length / 8
          if leftLen < rightLen then
            let data := pdqsort_func less fuel r.1 a mid limit true true
            pdqsort_func less fuel data (mid + 1) b limit (leftLen ≥ balanceThreshold) r.2.2
          else
            let data := pdqsort_func less fuel r.1 (mid + 1) b limit true true
            pdqsort_func less fuel data a mid limit (rightLen ≥ balanceThreshold) r.2.2

/-- `sort.Slice(x, less)`: `pdqsort_func(data, 0, length, bits.Len(length))` -/
def goSlice (less : α → α → Bool) (data : List α) : List α :=
  pdqsort_func less (data.length + 1) data 0 data.length (bitsLen 64 data.length) true true

end Pdqsort

/-! ### The ingest handler -/

/-- The zero `time.Time` (January 1, year 1, 00:00:00 UTC), in nanoseconds
from the Unix epoch. -/
def zeroTime : Int := -62135596800000000000

/-- The interface `Storage` as seen by `ingestHandler`: the method `Save`
of a store with states `σ`. -/
structure Storage (σ : Type) where
  Save : LogEntry → σ → σ × Option Error

/-- The part of `*http.Request` that the handler reads. -/
structure Request where
  Method : String
  Body : Bytes

/-- What the handler writes to the `http.ResponseWriter`. -/
structure Response where
  status : Nat
  body : String
  deriving DecidableEq, Repr

/-- `http.Error(w, msg, code)`. -/
def httpError (msg : String) (code : Nat) : Response :=
  { status := code, body := msg ++ "\n" }

/-- The three defaulting statements of `ingestHandler` between the decoding
and the call of `Save`; `now` is the value of `time.Now().UTC()`. -/
def withDefaults (now : Int) (e : LogEntry) : LogEntry :=
  let e := if e.Timestamp = zeroTime then { e with Timestamp := now } else e
  let e := if e.EventCategory = "" then { e with EventCategory := "unknown" } else e
  if e.RawMessage = "" then { e with RawMessage := "" } else e

/-- `ingestHandler`, with the global `store` and its state as arguments. -/
def ingestHandler {σ : Type} (lib : Lib) (now : Int) (store : Storage σ) (r : Request)
    (st : σ) : σ × Response :=
  if r.Method ≠ "POST" then (st, httpError "only POST allowed" 405)
  else
    match lib.Decode r.Body with
    | .error err => (st, httpError ("invalid payload: " ++ err) 400)
    | .ok (e, _) =>
      match store.Save (withDefaults now e) st with
      | (st1, some err) => (st1, httpError ("save error: " ++ err) 500)
      | (st1, none) => (st1, { status := 202, body := "" })

/-- The store of `main`: a `FileStorage` and the file system, the operating
system answering `io` to the call of `Save`. -/
def fileStore (lib : Lib) (io : SaveOutcome) : Storage (FileStorage × Disk) :=
  { Save := fun e st => (((Save lib io st.1 st.2 e).1, (Save lib io st.1 st.2 e).2.1),
      (Save lib io st.1 st.2 e).2.2) }

/-- A store that also keeps the list of the records handed to `Save`. -/
def Storage.recording {σ : Type} (store : Storage σ) : Storage (σ × List LogEntry) :=
  { Save := fun e st => (((store.Save e st.1).1, st.2 ++ [e]), (store.Save e st.1).2) }

/-! ### The operations of the storage engine as steps on the state -/

/-- A call of one of the five methods of `FileStorage`. -/
inductive Op where
  | save (io : SaveOutcome) (entry : LogEntry)
  | query (params : List (String × String)) (limit : Int) (sortKey : String)
  | count
  | groupByCategory
  | groupBySeverity

/-- What a call returns. -/
inductive Answer where
  | saved (err : Option Error)
  | entries (res : List LogEntry) (err : Option Error)
  | total (n : Int)
  | groups (m : CountMap)

/-- One call on the store and the file system.  `Query`, `Count` and the two
group-by methods only read `s.cache` (`Query` sorts and truncates its own
slice `res`), so they hand the state back as it was. -/
def Op.run (lib : Lib) : Op → FileStorage × Disk → (FileStorage × Disk) × Answer
  | .save io entry, st =>
    (((Save lib io st.1 st.2 entry).1, (Save lib io st.1 st.2 entry).2.1),
      .saved (Save lib io st.1 st.2 entry).2.2)
  | .query params limit sortKey, st =>
    (st, .entries (Query lib st.1 params limit sortKey).1 (Query lib st.1 params limit sortKey).2)
  | .count, st => (st, .total (Count st.1))
  | .groupByCategory, st => (st, .groups (GroupByCategory st.1))
  | .groupBySeverity, st => (st, .groups (GroupBySeverity st.1))

/-- A sequence of calls, one after the other. -/
def runAll (lib : Lib) : List Op → FileStorage × Disk → FileStorage × Disk
  | [], st => st
  | op :: ops, st => runAll lib ops (op.run lib st).1

/-! ### Further specification-side notions -/

/-- Every successful `Decode` consumes at least one byte of the stream. -/
def DecodeProgress (lib : Lib) : Prop :=
  ∀ stream e rest, lib.Decode stream = .ok (e, rest) → rest.length < stream.length

/-- `Replays lib stream es`: decoding `stream` from its beginning succeeds on
the records `es`, one after the other, and fails right after them. -/
inductive Replays (lib : Lib) : Bytes → List LogEntry → Prop where
  | stop {stream : Bytes} {err : Error} :
    lib.Decode stream = .error err → Replays lib stream []
  | step {stream rest : Bytes} {e : LogEntry} {es : List LogEntry} :
    lib.Decode stream = .ok (e, rest) → Replays lib rest es → Replays lib stream (e :: es)

/-- The value `m[k]` of a Go map. -/
def CountMap.get (m : CountMap) (k : String) : Int := (m.lookup k).getD 0

/-- The records with time stamp `t` come in `res` in the same order as in
`found`, for every `t`. -/
def StableForTies (res found : List LogEntry) : Prop :=
  ∀ t : Int, res.filter (fun e => decide (e.Timestamp = t)) =
    found.filter (fun e => decide (e.Timestamp = t))

/-- The library with Go's sorting procedure for `sort.Slice`. -/
def goLib : Lib := { sampleLib with Slice := goSlice }

/-- A record of user `u` at the instant `t`. -/
def tieEntry (u : String) (t : Int) : LogEntry :=
  { Timestamp := t, EventCategory := "event", Username := u, Hostname := "host1",
    Severity := "INFO", RawMessage := "", IsBlacklisted := false, Meta := [] }

/-- Thirteen records: twelve at the instant 1, appended in the order of
their names, and a last one at the instant 0. -/
def tieStore : FileStorage :=
  { path := "/data/logs.jsonl",
    cache := (["u00", "u01", "u02", "u03", "u04", "u05", "u06", "u07", "u08", "u09", "u10",
      "u11"].map (fun u => tieEntry u 1)) ++ [tieEntry "u12" 0] }

end LogServer

/-! # Theorems -/

namespace LogCollector

theorem containsList_iff (sub s : List Char) : containsList sub s = true ↔ sub <:+: s := by
  induction s with
  | nil =>
    simp [containsList, List.isEmpty_iff]
  | cons c cs ih =>
    simp only [containsList, Bool.or_eq_true, ih, List.isPrefixOf_iff_prefix]
    rw [List.infix_cons_iff]

theorem Contains_iff (s substr : String) : Contains s substr = true ↔ substr.data <:+: s.data :=
  containsList_iff _ _

/-- Every step of the blacklist loop leaves the other fields alone. -/
theorem foldl_blacklist_fields (s : String) (ks : List String) (p : Parsed) :
    let q := ks.foldl (fun q ip => if Contains s ip then { q with IsBlacklisted := true } else q) p
    q.Timestamp = p.Timestamp ∧ q.EventCategory = p.EventCategory ∧ q.Username = p.Username ∧
      q.Hostname = p.Hostname ∧ q.Severity = p.Severity ∧ q.RawMessage = p.RawMessage := by
  induction ks generalizing p with
  | nil => simp
  | cons k ks ih =>
    simp only [List.foldl_cons]
    by_cases h : Contains s k = true
    · simpa [h] using ih { p with IsBlacklisted := true }
    · simpa [h] using ih p

theorem parseMessage_EventCategory (lower : Char → Char) (now : Int) (s : String) :
    (parseMessage lower now s).EventCategory =
      if Contains (ToLower lower s) "login" || Contains (ToLower lower s) "logged on" ||
          Contains (ToLower lower s) "session opened" then "login.audit"
      else if Contains (ToLower lower s) "logout" || Contains (ToLower lower s) "session closed" ||
          Contains (ToLower lower s) "terminated" then "logout.audit"
      else "event" := by
  unfold parseMessage
  simp only []
  rw [(foldl_blacklist_fields s _ _).2.1]
  simp only [apply_ite Parsed.EventCategory, ite_self]

theorem rep_eq {R : Type} (p : Char → Bool) (k : Nat → List Char → Option R)
    (hk : (∀ n c cs, p c = true → k n (c :: cs) = none) ∨ (∀ n r, (k n r).isSome = true))
    (pos : Nat) (xs : List Char) :
    rep p k pos xs = k (pos + (xs.takeWhile p).length) (xs.dropWhile p) := by
  induction xs generalizing pos with
  | nil => simp [rep]
  | cons c cs ih =>
    by_cases hc : p c = true
    · simp only [rep, hc, if_true, List.takeWhile_cons_of_pos, List.dropWhile_cons_of_pos,
        List.length_cons]
      rw [ih (pos + 1)]
      have e : pos + 1 + (List.takeWhile p cs).length = pos + ((List.takeWhile p cs).length + 1) := by
        omega
      rw [e]
      rcases hk with hk | hk
      · rw [hk pos c cs hc]
        cases k (pos + ((List.takeWhile p cs).length + 1)) (List.dropWhile p cs) <;> rfl
      · have := hk (pos + ((List.takeWhile p cs).length + 1)) (List.dropWhile p cs)
        revert this
        cases k (pos + ((List.takeWhile p cs).length + 1)) (List.dropWhile p cs) <;> simp
    · simp [rep, hc]

theorem run_plus {R : Type} (p : Char → Bool) (st : MatchState) (k : MatchState → Option R)
    (hk : RejectsClass p k ∨ ∀ st1, (k st1).isSome = true) :
    (Regex.plus p).run st k =
      if st.rest.takeWhile p = [] then none
      else k ⟨st.pos + (st.rest.takeWhile p).length, st.rest.dropWhile p, st.group⟩ := by
  obtain ⟨pos, rest, g⟩ := st
  cases rest with
  | nil => simp [Regex.run]
  | cons x xs =>
    by_cases hx : p x = true
    · simp only [Regex.run, hx, if_true, List.takeWhile_cons_of_pos, List.dropWhile_cons_of_pos,
        List.length_cons]
      rw [rep_eq]
      · simp; congr 2; omega
      · rcases hk with hk | hk
        · exact Or.inl (fun n c cs hc => hk n c cs g hc)
        · exact Or.inr (fun n r => hk _)
    · simp [Regex.run, hx]

theorem run_star {R : Type} (p : Char → Bool) (st : MatchState) (k : MatchState → Option R)
    (hk : RejectsClass p k ∨ ∀ st1, (k st1).isSome = true) :
    (Regex.star p).run st k =
      k ⟨st.pos + (st.rest.takeWhile p).length, st.rest.dropWhile p, st.group⟩ := by
  obtain ⟨pos, rest, g⟩ := st
  simp only [Regex.run]
  rw [rep_eq]
  rcases hk with hk | hk
  · exact Or.inl (fun n c cs hc => hk n c cs g hc)
  · exact Or.inr (fun n r => hk _)

theorem take_length_takeWhile (p : Char → Bool) (l : List Char) :
    l.take (l.takeWhile p).length = l.takeWhile p := by
  induction l with
  | nil => rfl
  | cons c cs ih =>
    by_cases hc : p c = true
    · simp [List.takeWhile_cons_of_pos hc, ih]
    · simp [List.takeWhile_cons_of_neg hc]

theorem run_seq {R : Type} (a b : Regex) (st : MatchState) (k : MatchState → Option R) :
    (Regex.seq a b).run st k = a.run st (fun st1 => b.run st1 k) := rfl

theorem run_cap {R : Type} (r : Regex) (st : MatchState) (k : MatchState → Option R) :
    (Regex.cap r).run st k =
      r.run st (fun st1 => k { st1 with group := some (st.rest.take (st1.pos - st.pos)) }) := rfl

theorem run_bol {R : Type} (st : MatchState) (k : MatchState → Option R) :
    Regex.bol.run st k = if st.pos = 0 then k st else none := rfl

theorem run_lit_cons {R : Type} (c x : Char) (n : Nat) (xs : List Char) (g : Option (List Char))
    (k : MatchState → Option R) :
    (Regex.lit c).run ⟨n, x :: xs, g⟩ k = if x = c then k ⟨n + 1, xs, g⟩ else none := rfl

theorem run_lit_nil {R : Type} (c : Char) (n : Nat) (g : Option (List Char))
    (k : MatchState → Option R) :
    (Regex.lit c).run ⟨n, [], g⟩ k = none := rfl

theorem isDigit_ne_gt {c : Char} (h : isDigit c = true) : c ≠ '>' := by
  rintro rfl
  revert h
  decide

theorem matchAt_severityRegex (l : List Char) :
    (matchAt severityRegex 0 l).map (fun m => (m.length, m.getD 1 "")) =
      (leadingMarker l).map (fun dr => (2, String.mk dr.1)) := by
  unfold matchAt severityRegex
  simp only [run_seq, run_bol, if_true]
  cases l with
  | nil => simp [run_lit_nil, leadingMarker]
  | cons x xs =>
    simp only [run_lit_cons, leadingMarker]
    by_cases hx : x = '<'
    · simp only [hx, if_true, run_cap]
      rw [run_plus]
      · by_cases hd : List.takeWhile isDigit xs = []
        · simp [hd]
        · simp only [hd, if_false]
          cases hr : List.dropWhile isDigit xs with
          | nil => simp [run_lit_nil]
          | cons y ys =>
            simp only [run_lit_cons]
            by_cases hy : y = '>'
            · simp [hy, take_length_takeWhile]
            · simp [hy]
      · left
        intro n c cs g hc
        simp [run_lit_cons, isDigit_ne_gt hc]
    · simp [hx]

theorem isSpace_not_nonSpace {c : Char} (h : isSpace c = true) : isNonSpace c = false := by
  simp [isNonSpace, h]

theorem matchAt_hostRegex (l : List Char) :
    (matchAt hostRegex 0 l).map (fun m => (m.length, m.getD 1 "")) =
      (leadingMarker l).bind (fun dr =>
        if (dr.2.dropWhile isSpace).takeWhile isNonSpace = [] then none
        else some (2, String.mk ((dr.2.dropWhile isSpace).takeWhile isNonSpace))) := by
  unfold matchAt hostRegex
  simp only [run_seq, run_bol, if_true]
  cases l with
  | nil => simp [run_lit_nil, leadingMarker]
  | cons x xs =>
    simp only [run_lit_cons, leadingMarker]
    by_cases hx : x = '<'
    · simp only [hx, if_true]
      rw [run_plus]
      · by_cases hd : List.takeWhile isDigit xs = []
        · simp [hd]
        · simp only [hd, if_false]
          cases hr : List.dropWhile isDigit xs with
          | nil => simp [run_lit_nil]
          | cons y ys =>
            simp only [run_lit_cons]
            by_cases hy : y = '>'
            · simp only [hy, if_true]
              rw [run_star, run_cap, run_plus]
              · simp only [Option.some_bind]
                by_cases hh : List.takeWhile isNonSpace (List.dropWhile isSpace ys) = []
                · rw [if_pos hh, if_pos hh]
                  rfl
                · rw [if_neg hh, if_neg hh]
                  simp [take_length_takeWhile]
              · right
                intro st1
                rfl
              · left
                intro n c cs g hc
                simp [run_cap, Regex.run, isSpace_not_nonSpace hc]
            · simp [hy]
      · left
        intro n c cs g hc
        simp [run_seq, run_lit_cons, isDigit_ne_gt hc]
    · simp [hx]

theorem matchAt_bol_succ (r : Regex) (pos : Nat) (l : List Char) :
    matchAt (.seq .bol r) (pos + 1) l = none := by
  simp [matchAt, run_seq, run_bol]

theorem search_bol_succ (r : Regex) (pos : Nat) (l : List Char) :
    search (.seq .bol r) (pos + 1) l = [] := by
  induction l generalizing pos with
  | nil => simp [search, matchAt_bol_succ]
  | cons c cs ih => simp [search, matchAt_bol_succ, ih]

theorem search_bol (r : Regex) (l : List Char) :
    search (.seq .bol r) 0 l = (matchAt (.seq .bol r) 0 l).getD [] := by
  cases l with
  | nil => rfl
  | cons c cs =>
    simp only [search]
    cases matchAt (.seq .bol r) 0 (c :: cs) with
    | none => simp [search_bol_succ]
    | some m => rfl

theorem isWordChar_not_space {c : Char} (h : isWordChar c = true) : isSpace c = false := by
  by_contra hs
  have hs' : isSpace c = true := by simpa using hs
  simp only [isSpace, Bool.or_eq_true, beq_iff_eq] at hs'
  rcases hs' with (((rfl | rfl) | rfl) | rfl) | rfl <;> revert h <;> decide

theorem matchAt_wordUserRegex (pos : Nat) (l : List Char) :
    (matchAt wordUserRegex pos l).map (fun m => (m.length, m.getD 1 "")) =
      (byToken l).map (fun t => (2, String.mk t)) := by
  unfold matchAt wordUserRegex
  simp only [run_seq]
  match l with
  | [] => simp [run_lit_nil, byToken]
  | [x] =>
    simp only [run_lit_cons, byToken]
    by_cases hx : x = 'b' <;> simp [hx, run_lit_nil]
  | x :: y :: r =>
    simp only [run_lit_cons, byToken]
    by_cases hx : x = 'b'
    · by_cases hy : y = 'y'
      · simp only [hx, hy, if_true, and_self]
        rw [run_plus]
        · by_cases hw : List.takeWhile isSpace r = []
          · rw [if_pos hw, if_pos hw]
            rfl
          · rw [if_neg hw, if_neg hw, run_cap, run_plus]
            · by_cases ht : List.takeWhile isWordChar (List.dropWhile isSpace r) = []
              · rw [if_pos ht, if_pos ht]
                rfl
              · rw [if_neg ht, if_neg ht]
                simp [take_length_takeWhile]
            · right
              intro st1
              rfl
        · left
          intro n c cs g hc
          have : isWordChar c = false := by
            by_contra hcw
            have hcw' : isWordChar c = true := by simpa using hcw
            rw [isWordChar_not_space hcw'] at hc
            exact Bool.noConfusion hc
          simp [run_cap, Regex.run, this]
      · simp [hx, hy]
    · simp [hx]

theorem search_wordUserRegex (pos : Nat) (l : List Char) :
    ((search wordUserRegex pos l).length, (search wordUserRegex pos l).getD 1 "") =
      match firstByToken l with
      | some t => (2, String.mk t)
      | none => (0, "") := by
  induction l generalizing pos with
  | nil =>
    have h := matchAt_wordUserRegex pos []
    simp only [search, firstByToken]
    cases hm : matchAt wordUserRegex pos [] with
    | none => rfl
    | some m => rw [hm] at h; simp [byToken] at h
  | cons c cs ih =>
    have h := matchAt_wordUserRegex pos (c :: cs)
    simp only [search, firstByToken]
    cases hm : matchAt wordUserRegex pos (c :: cs) with
    | none =>
      rw [hm] at h
      cases hb : byToken (c :: cs) with
      | none => simpa using ih (pos + 1)
      | some t => rw [hb] at h; simp at h
    | some m =>
      rw [hm] at h
      cases hb : byToken (c :: cs) with
      | none => rw [hb] at h; simp at h
      | some t =>
        rw [hb] at h
        simp only [Option.map_some', Option.some.injEq] at h
        simpa using h

theorem takeWhile_dropWhile_append (p : Char → Bool) (a b : List Char)
    (ha : ∀ c ∈ a, p c = true) (hb : ∀ c, b.head? = some c → p c = false) :
    (a ++ b).takeWhile p = a ∧ (a ++ b).dropWhile p = b := by
  induction a with
  | nil =>
    cases b with
    | nil => simp
    | cons c cs =>
      have := hb c rfl
      simp [List.takeWhile_cons, List.dropWhile_cons, this]
  | cons x xs ih =>
    have hx : p x = true := ha x (List.mem_cons_self _ _)
    have := ih (fun c hc => ha c (List.mem_cons_of_mem _ hc))
    simp [List.takeWhile_cons, List.dropWhile_cons, hx, this.1, this.2]

theorem head_dropWhile {p : Char → Bool} (l : List Char) :
    ∀ c, (l.dropWhile p).head? = some c → p c = false := by
  induction l with
  | nil => simp
  | cons x xs ih =>
    intro c
    by_cases hx : p x = true
    · simpa [List.dropWhile_cons, hx] using ih c
    · simp only [List.dropWhile_cons, hx, Bool.false_eq_true, if_false, List.head?_cons,
        Option.some.injEq]
      rintro rfl
      simpa using hx

theorem leadingMarker_of_hasMarker {l ds rest : List Char} (h : HasMarker l ds rest) :
    leadingMarker l = some (ds, rest) := by
  obtain ⟨rfl, hne, hd⟩ := h
  have := takeWhile_dropWhile_append isDigit ds ('>' :: rest) hd (by
    intro c hc
    simp only [List.head?_cons, Option.some.injEq] at hc
    subst hc
    decide)
  simp [leadingMarker, this.1, this.2, hne]

theorem hasMarker_of_leadingMarker {l ds rest : List Char} (h : leadingMarker l = some (ds, rest)) :
    HasMarker l ds rest := by
  cases l with
  | nil => simp [leadingMarker] at h
  | cons x xs =>
    simp only [leadingMarker] at h
    by_cases hx : x = '<'
    · by_cases hd : List.takeWhile isDigit xs = []
      · simp [hx, hd] at h
      · rw [if_pos hx, if_neg hd] at h
        cases hr : List.dropWhile isDigit xs with
        | nil => simp [hr] at h
        | cons y ys =>
          rw [hr] at h
          by_cases hy : y = '>'
          · simp only [hy, if_true, Option.some.injEq, Prod.mk.injEq] at h
            obtain ⟨h1, h2⟩ := h
            refine ⟨?_, ?_, ?_⟩
            · rw [← List.takeWhile_append_dropWhile isDigit xs, hr, h1, hy, h2, hx]
            · rw [← h1]; exact hd
            · intro c hc
              rw [← h1] at hc
              exact (List.mem_takeWhile_imp hc)
          · simp [hy] at h
    · simp [hx] at h

theorem leadingMarker_eq_none {l : List Char} (h : ¬ ∃ ds rest, HasMarker l ds rest) :
    leadingMarker l = none := by
  cases hm : leadingMarker l with
  | none => rfl
  | some dr => exact absurd ⟨dr.1, dr.2, hasMarker_of_leadingMarker hm⟩ h

theorem not_hasMarker_of_leadingMarker {l : List Char} (h : leadingMarker l = none) :
    ¬ ∃ ds rest, HasMarker l ds rest := by
  rintro ⟨ds, rest, hm⟩
  rw [leadingMarker_of_hasMarker hm] at h
  exact Option.noConfusion h

theorem parseMessage_Severity (lower : Char → Char) (now : Int) (s : String) :
    (parseMessage lower now s).Severity =
      if (FindStringSubmatch severityRegex s).length > 1 then
        mapSeverity ((FindStringSubmatch severityRegex s).getD 1 "")
      else "" := by
  unfold parseMessage
  simp only []
  rw [(foldl_blacklist_fields s _ _).2.2.2.2.1]
  simp only [apply_ite Parsed.Severity, ite_self]

theorem parseMessage_Hostname (lower : Char → Char) (now : Int) (s : String) :
    (parseMessage lower now s).Hostname =
      if (FindStringSubmatch hostRegex s).length > 1 then
        (FindStringSubmatch hostRegex s).getD 1 ""
      else "" := by
  unfold parseMessage
  simp only []
  rw [(foldl_blacklist_fields s _ _).2.2.2.1]
  simp only [apply_ite Parsed.Hostname, ite_self]

theorem parseMessage_Username (lower : Char → Char) (now : Int) (s : String) :
    (parseMessage lower now s).Username =
      if (FindStringSubmatch wordUserRegex s).length > 1 then
        (FindStringSubmatch wordUserRegex s).getD 1 ""
      else "" := by
  unfold parseMessage
  simp only []
  rw [(foldl_blacklist_fields s _ _).2.2.1]
  simp only [apply_ite Parsed.Username, ite_self]

theorem findSeverity (s : String) :
    ((FindStringSubmatch severityRegex s).length, (FindStringSubmatch severityRegex s).getD 1 "") =
      match leadingMarker s.data with
      | some dr => (2, String.mk dr.1)
      | none => (0, "") := by
  have h := matchAt_severityRegex s.data
  unfold FindStringSubmatch
  have e : search severityRegex 0 s.data = (matchAt severityRegex 0 s.data).getD [] :=
    search_bol _ _
  rw [e]
  cases hm : matchAt severityRegex 0 s.data with
  | none =>
    rw [hm] at h
    cases hl : leadingMarker s.data with
    | none => rfl
    | some dr => rw [hl] at h; simp at h
  | some m =>
    rw [hm] at h
    cases hl : leadingMarker s.data with
    | none => rw [hl] at h; simp at h
    | some dr =>
      rw [hl] at h
      simp only [Option.map_some', Option.some.injEq] at h
      simpa using h

theorem findHost (s : String) :
    ((FindStringSubmatch hostRegex s).length, (FindStringSubmatch hostRegex s).getD 1 "") =
      match leadingMarker s.data with
      | some dr =>
        if (dr.2.dropWhile isSpace).takeWhile isNonSpace = [] then (0, "")
        else (2, String.mk ((dr.2.dropWhile isSpace).takeWhile isNonSpace))
      | none => (0, "") := by
  have h := matchAt_hostRegex s.data
  unfold FindStringSubmatch
  have e : search hostRegex 0 s.data = (matchAt hostRegex 0 s.data).getD [] :=
    search_bol _ _
  rw [e]
  cases hl : leadingMarker s.data with
  | none =>
    rw [hl] at h
    cases hm : matchAt hostRegex 0 s.data with
    | none => rfl
    | some m => rw [hm] at h; simp at h
  | some dr =>
    rw [hl] at h
    simp only [Option.some_bind] at h
    by_cases hh : (dr.2.dropWhile isSpace).takeWhile isNonSpace = []
    · rw [if_pos hh] at h
      simp only [if_pos hh]
      cases hm : matchAt hostRegex 0 s.data with
      | none => rfl
      | some m => rw [hm] at h; simp at h
    · rw [if_neg hh] at h
      simp only [if_neg hh]
      cases hm : matchAt hostRegex 0 s.data with
      | none => rw [hm] at h; simp at h
      | some m =>
        rw [hm] at h
        simp only [Option.map_some', Option.some.injEq] at h
        simpa using h

/-- C1: the event category is decided on the lower-cased message, in priority
order: `login.audit` when it contains "login", "logged on" or "session
opened"; otherwise `logout.audit` when it contains "logout", "session
closed" or "terminated"; otherwise `event`. -/
theorem C1_eventCategory (lower : Char → Char) (now : Int) (s : String) :
    (MentionsLogin (ToLower lower s) →
      (parseMessage lower now s).EventCategory = "login.audit") ∧
    (¬ MentionsLogin (ToLower lower s) → MentionsLogout (ToLower lower s) →
      (parseMessage lower now s).EventCategory = "logout.audit") ∧
    (¬ MentionsLogin (ToLower lower s) → ¬ MentionsLogout (ToLower lower s) →
      (parseMessage lower now s).EventCategory = "event") := by
  have hlogin : (Contains (ToLower lower s) "login" || Contains (ToLower lower s) "logged on" ||
      Contains (ToLower lower s) "session opened") = true ↔ MentionsLogin (ToLower lower s) := by
    simp only [Bool.or_eq_true, Contains_iff, or_assoc, MentionsLogin]
  have hlogout : (Contains (ToLower lower s) "logout" ||
      Contains (ToLower lower s) "session closed" ||
      Contains (ToLower lower s) "terminated") = true ↔ MentionsLogout (ToLower lower s) := by
    simp only [Bool.or_eq_true, Contains_iff, or_assoc, MentionsLogout]
  rw [parseMessage_EventCategory]
  refine ⟨fun h => ?_, fun h1 h2 => ?_, fun h1 h2 => ?_⟩
  · rw [if_pos (hlogin.2 h)]
  · rw [if_neg (fun h => h1 (hlogin.1 h)), if_pos (hlogout.2 h2)]
  · rw [if_neg (fun h => h1 (hlogin.1 h)), if_neg (fun h => h2 (hlogout.1 h))]

theorem C1_eventCategory_witness :
    (parseMessage Char.toLower 0 "Failed LOGIN, session closed").EventCategory = "login.audit" ∧
    (parseMessage Char.toLower 0 "pam_unix: Session Closed for user root").EventCategory
      = "logout.audit" ∧
    (parseMessage Char.toLower 0 "disk /dev/sda1 is full").EventCategory = "event" :=
  ⟨(C1_eventCategory Char.toLower 0 "Failed LOGIN, session closed").1 (by decide),
    (C1_eventCategory Char.toLower 0 "pam_unix: Session Closed for user root").2.1
      (by decide) (by decide),
    (C1_eventCategory Char.toLower 0 "disk /dev/sda1 is full").2.2 (by decide) (by decide)⟩

/-- C3: for a message that starts with a marker `<digits>`, `Severity` is
"INFO" for the digits "86", "WARN" for "134" and "INFO" for every other
digit string; for a message without such a leading marker `Severity` stays
empty.  Digits are the class `\d` of the pattern, `0` to `9`. -/
theorem C3_severity (lower : Char → Char) (now : Int) (s : String) :
    (∀ ds rest, HasMarker s.data ds rest →
      (ds = "86".data → (parseMessage lower now s).Severity = "INFO") ∧
      (ds = "134".data → (parseMessage lower now s).Severity = "WARN") ∧
      (ds ≠ "86".data → ds ≠ "134".data → (parseMessage lower now s).Severity = "INFO")) ∧
    ((¬ ∃ ds rest, HasMarker s.data ds rest) → (parseMessage lower now s).Severity = "") := by
  have hf := findSeverity s
  rw [parseMessage_Severity]
  constructor
  · intro ds rest hm
    rw [leadingMarker_of_hasMarker hm] at hf
    simp only [Prod.mk.injEq] at hf
    rw [hf.1, hf.2]
    simp only [show (2 : Nat) > 1 by decide, if_true]
    refine ⟨?_, ?_, ?_⟩
    · rintro rfl; rfl
    · rintro rfl; rfl
    · intro h1 h2
      have e1 : (String.mk ds) ≠ "86" := fun h => h1 (congrArg String.data h)
      have e2 : (String.mk ds) ≠ "134" := fun h => h2 (congrArg String.data h)
      simp [mapSeverity, e1, e2]
  · intro hno
    rw [leadingMarker_eq_none hno] at hf
    simp only [Prod.mk.injEq] at hf
    rw [hf.1]
    rfl

theorem C3_severity_witness :
    (parseMessage Char.toLower 0 "<86> host1 sshd: ok").Severity = "INFO" ∧
    (parseMessage Char.toLower 0 "<134> host1 sshd: ok").Severity = "WARN" ∧
    (parseMessage Char.toLower 0 "<13> host1 sshd: ok").Severity = "INFO" ∧
    (parseMessage Char.toLower 0 "host1 <86> sshd: ok").Severity = "" :=
  ⟨((C3_severity Char.toLower 0 "<86> host1 sshd: ok").1 "86".data " host1 sshd: ok".data
      (by decide)).1 rfl,
    ((C3_severity Char.toLower 0 "<134> host1 sshd: ok").1 "134".data " host1 sshd: ok".data
      (by decide)).2.1 rfl,
    ((C3_severity Char.toLower 0 "<13> host1 sshd: ok").1 "13".data " host1 sshd: ok".data
      (by decide)).2.2 (by decide) (by decide),
    (C3_severity Char.toLower 0 "host1 <86> sshd: ok").2
      (not_hasMarker_of_leadingMarker (by decide))⟩

/-- C5: for a message with a leading marker `<digits>`, `Hostname` is the
maximal run of characters other than white space that follows the white
space behind the marker; for a message without a leading marker `Hostname`
is empty.  White space is the class `\s` of the pattern. -/
theorem C5_hostname (lower : Char → Char) (now : Int) (s : String) :
    (∀ ds rest, HasMarker s.data ds rest →
      (parseMessage lower now s).Hostname =
        String.mk ((rest.dropWhile isSpace).takeWhile (fun c => !isSpace c))) ∧
    ((¬ ∃ ds rest, HasMarker s.data ds rest) → (parseMessage lower now s).Hostname = "") := by
  have hf := findHost s
  rw [parseMessage_Hostname]
  constructor
  · intro ds rest hm
    rw [leadingMarker_of_hasMarker hm] at hf
    simp only [] at hf
    change _ = String.mk ((rest.dropWhile isSpace).takeWhile isNonSpace)
    by_cases hh : (rest.dropWhile isSpace).takeWhile isNonSpace = []
    · rw [if_pos hh] at hf
      simp only [Prod.mk.injEq] at hf
      rw [hf.1, hh]
      rfl
    · rw [if_neg hh] at hf
      simp only [Prod.mk.injEq] at hf
      rw [hf.1, hf.2]
      rfl
  · intro hno
    rw [leadingMarker_eq_none hno] at hf
    simp only [Prod.mk.injEq] at hf
    rw [hf.1]
    rfl

theorem C5_hostname_witness :
    (parseMessage Char.toLower 0 "<86>  host1 sshd: ok").Hostname = "host1" ∧
    (parseMessage Char.toLower 0 "<86>   ").Hostname = "" ∧
    (parseMessage Char.toLower 0 "host1 <86> sshd: ok").Hostname = "" :=
  ⟨(C5_hostname Char.toLower 0 "<86>  host1 sshd: ok").1 "86".data "  host1 sshd: ok".data
      (by decide),
    (C5_hostname Char.toLower 0 "<86>   ").1 "86".data "   ".data (by decide),
    (C5_hostname Char.toLower 0 "host1 <86> sshd: ok").2
      (not_hasMarker_of_leadingMarker (by decide))⟩

theorem foldl_blacklist_flag (s : String) (ks : List String) (p : Parsed) :
    (ks.foldl (fun q ip => if Contains s ip then { q with IsBlacklisted := true } else q)
      p).IsBlacklisted = (p.IsBlacklisted || ks.any (fun ip => Contains s ip)) := by
  induction ks generalizing p with
  | nil => simp
  | cons k ks ih =>
    simp only [List.foldl_cons, List.any_cons]
    rw [ih]
    by_cases h : Contains s k = true
    · simp [h]
    · simp [h]

theorem parseMessage_IsBlacklisted (lower : Char → Char) (now : Int) (s : String) :
    (parseMessage lower now s).IsBlacklisted =
      ((decide ((parseMessage lower now s).Username ≠ "") &&
          blacklistAt (ToLower lower (parseMessage lower now s).Username)) ||
        (blacklist.map Prod.fst).any (fun ip => Contains s ip)) := by
  rw [parseMessage_Username]
  unfold parseMessage
  simp only []
  rw [foldl_blacklist_flag]
  congr 1
  simp only [apply_ite Parsed.IsBlacklisted, apply_ite Parsed.Username, ite_self]
  cases h : (decide ((if (FindStringSubmatch wordUserRegex s).length > 1 then
      (FindStringSubmatch wordUserRegex s).getD 1 "" else "") ≠ "") &&
      blacklistAt (ToLower lower (if (FindStringSubmatch wordUserRegex s).length > 1 then
      (FindStringSubmatch wordUserRegex s).getD 1 "" else ""))) <;> simp

theorem ToLower_empty (lower : Char → Char) : ToLower lower "" = "" := by
  simp [ToLower]

theorem blacklistAt_iff (k : String) : blacklistAt k = true ↔ k ∈ ["baduser", "192.0.2.1"] := by
  simp only [blacklistAt, blacklist, List.lookup]
  by_cases h1 : k = "baduser"
  · simp [h1]
  · by_cases h2 : k = "192.0.2.1"
    · subst h2; simp
    · have e1 : (k == "baduser") = false := by simpa using h1
      have e2 : (k == "192.0.2.1") = false := by simpa using h2
      simp [e1, e2, h1, h2]

/-- C2: `IsBlacklisted` is true if and only if the lower-cased extracted
user name is a member of the blacklist set {"baduser", "192.0.2.1"} or some
blacklist literal occurs in the raw message; otherwise it is false. -/
theorem C2_isBlacklisted (lower : Char → Char) (now : Int) (s : String) :
    (parseMessage lower now s).IsBlacklisted = true ↔
      (ToLower lower (parseMessage lower now s).Username ∈ ["baduser", "192.0.2.1"] ∨
        ∃ lit ∈ ["baduser", "192.0.2.1"], lit.data <:+: s.data) := by
  rw [parseMessage_IsBlacklisted]
  simp only [Bool.or_eq_true, Bool.and_eq_true, decide_eq_true_eq, blacklistAt_iff,
    List.any_eq_true, Contains_iff]
  constructor
  · rintro (⟨_, h⟩ | ⟨k, hk, h⟩)
    · exact Or.inl h
    · exact Or.inr ⟨k, by simpa [blacklist] using hk, h⟩
  · rintro (h | ⟨k, hk, h⟩)
    · refine Or.inl ⟨?_, h⟩
      intro he
      rw [he, ToLower_empty] at h
      revert h
      decide
    · exact Or.inr ⟨k, by simpa [blacklist] using hk, h⟩

theorem findUser (s : String) :
    ((FindStringSubmatch wordUserRegex s).length, (FindStringSubmatch wordUserRegex s).getD 1 "") =
      match firstByToken s.data with
      | some t => (2, String.mk t)
      | none => (0, "") :=
  search_wordUserRegex 0 s.data

theorem byToken_of_occurrence {l ws tok post : List Char}
    (h : ByOccurrence l [] ws tok post) (hmax : ∀ c, post.head? = some c → isWordChar c = false) :
    byToken l = some tok := by
  obtain ⟨rfl, hws, hsp, htok, hw⟩ := h
  have h2 := takeWhile_dropWhile_append isWordChar tok post hw hmax
  have h1 := takeWhile_dropWhile_append isSpace ws (tok ++ post) hsp (by
    intro c hc
    cases tok with
    | nil => exact absurd rfl htok
    | cons t ts =>
      simp only [List.cons_append, List.head?_cons, Option.some.injEq] at hc
      subst hc
      exact isWordChar_not_space (hw _ (List.mem_cons_self _ _)))
  simp only [List.nil_append, List.append_assoc, byToken, and_self, if_true, h1.1, h1.2, h2.1]
  rw [if_neg hws, if_neg htok]

theorem occurrence_of_byToken {l t : List Char} (h : byToken l = some t) :
    ∃ ws post, ByOccurrence l [] ws t post ∧ ∀ c, post.head? = some c → isWordChar c = false := by
  match l, h with
  | x :: y :: r, h =>
    simp only [byToken] at h
    by_cases hxy : x = 'b' ∧ y = 'y'
    · rw [if_pos hxy] at h
      by_cases hw : List.takeWhile isSpace r = []
      · rw [if_pos hw] at h; exact Option.noConfusion h
      · rw [if_neg hw] at h
        by_cases ht : List.takeWhile isWordChar (List.dropWhile isSpace r) = []
        · rw [if_pos ht] at h; exact Option.noConfusion h
        · rw [if_neg ht] at h
          have ht' : List.takeWhile isWordChar (List.dropWhile isSpace r) = t :=
            Option.some.inj h
          refine ⟨List.takeWhile isSpace r,
            List.dropWhile isWordChar (List.dropWhile isSpace r), ⟨?_, hw, ?_, ?_, ?_⟩,
            head_dropWhile _⟩
          · rw [← ht', List.append_assoc, List.takeWhile_append_dropWhile,
              List.takeWhile_append_dropWhile, hxy.1, hxy.2]
            rfl
          · intro c hc; exact List.mem_takeWhile_imp hc
          · rw [← ht']; exact ht
          · intro c hc; rw [← ht'] at hc; exact List.mem_takeWhile_imp hc
    · rw [if_neg hxy] at h; exact Option.noConfusion h

theorem byToken_isSome_of_occurrence {l ws tok post : List Char}
    (h : ByOccurrence l [] ws tok post) : (byToken l).isSome = true := by
  obtain ⟨rfl, hws, hsp, htok, hw⟩ := h
  have e : tok ++ post = List.takeWhile isWordChar (tok ++ post) ++
      List.dropWhile isWordChar (tok ++ post) := (List.takeWhile_append_dropWhile _ _).symm
  have hne : List.takeWhile isWordChar (tok ++ post) ≠ [] := by
    cases tok with
    | nil => exact absurd rfl htok
    | cons t ts =>
      simp [List.takeWhile_cons, hw t (List.mem_cons_self _ _)]
  have := @byToken_of_occurrence ('b' :: 'y' :: (ws ++ tok ++ post)) ws
    (List.takeWhile isWordChar (tok ++ post)) (List.dropWhile isWordChar (tok ++ post))
    ⟨by rw [List.append_assoc, List.append_assoc, ← e]; rfl, hws, hsp, hne,
      fun c hc => List.mem_takeWhile_imp hc⟩ (head_dropWhile _)
  simp only [List.nil_append] at this ⊢
  rw [this]
  rfl

theorem occurrence_drop {l pre ws tok post : List Char} (h : ByOccurrence l pre ws tok post) :
    ByOccurrence (l.drop pre.length) [] ws tok post := by
  obtain ⟨rfl, r⟩ := h
  exact ⟨by simp, r⟩

theorem byToken_ne_none_of_occurrence {l pre ws tok post : List Char}
    (h : ByOccurrence l pre ws tok post) : byToken (l.drop pre.length) ≠ none := by
  intro hn
  have := byToken_isSome_of_occurrence (occurrence_drop h)
  rw [hn] at this
  exact Bool.noConfusion this

/-- No occurrence starts before position `n` when `byToken` fails there. -/
theorem leftmost_of_byToken_none {l : List Char} {n : Nat}
    (h : ∀ i < n, byToken (l.drop i) = none) (pre ws tok post : List Char)
    (ho : ByOccurrence l pre ws tok post) : n ≤ pre.length := by
  by_contra hlt
  exact byToken_ne_none_of_occurrence ho (h _ (Nat.lt_of_not_le hlt))

theorem firstByToken_ne_none_of_occurrence {l pre ws tok post : List Char}
    (h : ByOccurrence l pre ws tok post) : firstByToken l ≠ none := by
  induction pre generalizing l with
  | nil =>
    have := byToken_ne_none_of_occurrence h
    simp only [List.length_nil, List.drop_zero] at this
    obtain ⟨rfl, _⟩ := h
    simp only [List.nil_append, firstByToken]
    simp only [List.nil_append] at this
    cases hb : byToken ('b' :: 'y' :: (ws ++ tok ++ post)) with
    | none => exact absurd hb this
    | some t => simp
  | cons c cs ih =>
    obtain ⟨rfl, r⟩ := h
    simp only [List.cons_append, firstByToken]
    cases hb : byToken (c :: (cs ++ 'b' :: 'y' :: (ws ++ tok ++ post))) with
    | none => exact ih ⟨rfl, r⟩
    | some t => simp

theorem no_occurrence_of_firstByToken {l : List Char} (h : firstByToken l = none) :
    ¬ ∃ pre ws tok post, ByOccurrence l pre ws tok post := by
  rintro ⟨pre, ws, tok, post, ho⟩
  exact firstByToken_ne_none_of_occurrence ho h

theorem firstByToken_append (pre X : List Char)
    (h : ∀ a b, pre = a ++ b → b ≠ [] → byToken (b ++ X) = none) :
    firstByToken (pre ++ X) = firstByToken X := by
  induction pre with
  | nil => rfl
  | cons c cs ih =>
    have h0 := h [] (c :: cs) rfl (List.cons_ne_nil _ _)
    simp only [List.cons_append] at h0 ⊢
    simp only [firstByToken, h0]
    exact ih (fun a b hab hb => h (c :: a) b (by rw [hab]; rfl) hb)

theorem firstByToken_some {l t : List Char} (h : firstByToken l = some t) :
    ∃ pre ws post, ByOccurrence l pre ws t post := by
  induction l with
  | nil => exact Option.noConfusion h
  | cons c cs ih =>
    simp only [firstByToken] at h
    cases hb : byToken (c :: cs) with
    | some t1 =>
      rw [hb] at h
      obtain ⟨ws, post, ho, _⟩ := occurrence_of_byToken hb
      exact ⟨[], ws, post, Option.some.inj h ▸ ho⟩
    | none =>
      rw [hb] at h
      obtain ⟨pre, ws, post, ho, r⟩ := ih h
      exact ⟨c :: pre, ws, post, by rw [ho]; rfl, r⟩

theorem firstByToken_of_leftmost {l pre ws tok post : List Char}
    (h : ByOccurrence l pre ws tok post) (hmax : ∀ c, post.head? = some c → isWordChar c = false)
    (hleft : ∀ pre1 ws1 tok1 post1, ByOccurrence l pre1 ws1 tok1 post1 →
      pre.length ≤ pre1.length) :
    firstByToken l = some tok := by
  obtain ⟨hl, hws, hsp, htok, hw⟩ := h
  have hX : byToken ('b' :: 'y' :: (ws ++ tok ++ post)) = some tok :=
    byToken_of_occurrence ⟨rfl, hws, hsp, htok, hw⟩ hmax
  rw [hl, firstByToken_append]
  · simp only [firstByToken, hX]
  · intro a b hab hb
    cases hbt : byToken (b ++ 'b' :: 'y' :: (ws ++ tok ++ post)) with
    | none => rfl
    | some t1 =>
      obtain ⟨ws1, post1, ⟨e, r⟩, _⟩ := occurrence_of_byToken hbt
      have := hleft a ws1 t1 post1 ⟨by rw [hl, hab, List.append_assoc, e]; rfl, r⟩
      rw [hab, List.length_append] at this
      have hb' : 0 < b.length := List.length_pos.2 hb
      omega

/-- C4: when the message holds the word `by`, then white space, then a
non-empty token of letters, digits, `_` or `-`, `Username` is the token of
the leftmost such occurrence, taken maximally and with its case kept; when
there is no such occurrence `Username` is empty.  White space is the class
`\s` of the pattern and the letters and digits are the ASCII ones. -/
theorem C4_username (lower : Char → Char) (now : Int) (s : String) :
    (∀ pre ws tok post, ByOccurrence s.data pre ws tok post →
      (∀ c, post.head? = some c → isWordChar c = false) →
      (∀ pre1 ws1 tok1 post1, ByOccurrence s.data pre1 ws1 tok1 post1 →
        pre.length ≤ pre1.length) →
      (parseMessage lower now s).Username = String.mk tok) ∧
    ((¬ ∃ pre ws tok post, ByOccurrence s.data pre ws tok post) →
      (parseMessage lower now s).Username = "") := by
  have hf := findUser s
  rw [parseMessage_Username]
  constructor
  · intro pre ws tok post ho hmax hleft
    rw [firstByToken_of_leftmost ho hmax hleft] at hf
    simp only [Prod.mk.injEq] at hf
    rw [hf.1, hf.2]
    rfl
  · intro hno
    have : firstByToken s.data = none := by
      cases hfb : firstByToken s.data with
      | none => rfl
      | some t => exact absurd (by obtain ⟨a, b, c, h⟩ := firstByToken_some hfb; exact ⟨a, b, t, c, h⟩) hno
    rw [this] at hf
    simp only [Prod.mk.injEq] at hf
    rw [hf.1]
    rfl

theorem C4_username_witness :
    (parseMessage Char.toLower 0
      "session opened for user root(uid=0) by  Mota-Data_9(uid=1000) by x").Username
      = "Mota-Data_9" ∧
    (parseMessage Char.toLower 0 "system rebooted").Username = "" :=
  ⟨(C4_username Char.toLower 0
      "session opened for user root(uid=0) by  Mota-Data_9(uid=1000) by x").1
      "session opened for user root(uid=0) ".data "  ".data "Mota-Data_9".data
      "(uid=1000) by x".data (by decide) (by decide)
      (leftmost_of_byToken_none (by decide)),
    (C4_username Char.toLower 0 "system rebooted").2
      (no_occurrence_of_firstByToken (by decide))⟩

/-- C15: `RawMessage` is the message itself, whatever else is extracted from
it. -/
theorem C15_rawMessage (lower : Char → Char) (now : Int) (s : String) :
    (parseMessage lower now s).RawMessage = s := by
  unfold parseMessage
  simp only []
  rw [(foldl_blacklist_fields s _ _).2.2.2.2.2]
  simp only [apply_ite Parsed.RawMessage, ite_self]

theorem ToLower_of_ascii (lower : Char → Char) (s : String)
    (h : s.data.all (fun c => decide (c.toNat < 128)) = true) :
    ToLower lower s = String.mk (s.data.map asciiLower) := by
  simp only [ToLower, h, if_true]

/-- C16: the line `<86> host1 sudo: ... session opened for user root(uid=0) by
motadata(uid=1000)`, taken literally, parses to the category `login.audit`,
the user name `motadata`, the host name `host1`, the severity `INFO` and no
blacklist flag. -/
theorem C16_scenario (lower : Char → Char) (now : Int) :
    (parseMessage lower now
      "<86> host1 sudo: ... session opened for user root(uid=0) by motadata(uid=1000)").EventCategory
      = "login.audit" ∧
    (parseMessage lower now
      "<86> host1 sudo: ... session opened for user root(uid=0) by motadata(uid=1000)").Username
      = "motadata" ∧
    (parseMessage lower now
      "<86> host1 sudo: ... session opened for user root(uid=0) by motadata(uid=1000)").Hostname
      = "host1" ∧
    (parseMessage lower now
      "<86> host1 sudo: ... session opened for user root(uid=0) by motadata(uid=1000)").Severity
      = "INFO" ∧
    (parseMessage lower now
      "<86> host1 sudo: ... session opened for user root(uid=0) by motadata(uid=1000)").IsBlacklisted
      = false := by
  have hu : (parseMessage lower now
      "<86> host1 sudo: ... session opened for user root(uid=0) by motadata(uid=1000)").Username
      = "motadata" := by
    rw [parseMessage_Username]
    decide
  refine ⟨?_, hu, ?_, ?_, ?_⟩
  · rw [parseMessage_EventCategory, ToLower_of_ascii lower _ (by decide)]
    decide
  · rw [parseMessage_Hostname]
    decide
  · rw [parseMessage_Severity]
    decide
  · rw [parseMessage_IsBlacklisted, hu, ToLower_of_ascii lower _ (by decide)]
    decide

theorem infix_map_of_fixed (f : Char → Char) (sub l : List Char) (hf : ∀ c ∈ sub, f c = c)
    (h : sub <:+: l) : sub <:+: l.map f := by
  obtain ⟨a, b, rfl⟩ := h
  refine ⟨a.map f, b.map f, ?_⟩
  have e : sub.map f = sub := by
    conv_rhs => rw [← List.map_id sub]
    exact List.map_congr_left hf
  simp only [List.map_append, e]

theorem asciiLower_fixed_of_not_upper (c : Char) (h : ¬ ('A' ≤ c ∧ c ≤ 'Z')) :
    asciiLower c = c := by
  simp only [asciiLower, if_neg h]

/-- A keyword of lower-case ASCII text that occurs in the message occurs in
the lower-cased message. -/
theorem infix_ToLower (lower : Char → Char) (hl : AgreesOnASCII lower) (sub : List Char)
    (hsub : ∀ c ∈ sub, c.toNat < 128 ∧ ¬ ('A' ≤ c ∧ c ≤ 'Z')) (s : String)
    (h : sub <:+: s.data) : sub <:+: (ToLower lower s).data := by
  unfold ToLower
  split
  · exact infix_map_of_fixed _ _ _
      (fun c hc => asciiLower_fixed_of_not_upper c (hsub c hc).2) h
  · exact infix_map_of_fixed _ _ _
      (fun c hc => by
        rw [hl c (hsub c hc).1]
        exact asciiLower_fixed_of_not_upper c (hsub c hc).2) h

/-- C18 refuted: a message that contains "session closed" and also "login"
gets the category `login.audit`, so the claim fails for it. -/
theorem C18_counterexample :
    ¬ ∀ (lower : Char → Char) (now : Int) (s : String),
        ("session closed".data <:+: s.data ∨ "terminated".data <:+: s.data) →
          (parseMessage lower now s).EventCategory = "logout.audit" := by
  intro h
  have h1 := h Char.toLower 0 "pam_unix(login:session): session closed for user root"
    (Or.inl (by decide))
  revert h1
  decide

/-- C18 as amended: a message that contains "session closed" or "terminated"
and whose lower-cased text contains none of "login", "logged on" and "session
opened" gets the category `logout.audit`; `lower` is taken to agree with
ASCII lower-casing on ASCII characters, as `unicode.ToLower` does. -/
theorem C18_logout_without_login (lower : Char → Char) (hl : AgreesOnASCII lower) (now : Int)
    (s : String) (h : "session closed".data <:+: s.data ∨ "terminated".data <:+: s.data)
    (hno : ¬ MentionsLogin (ToLower lower s)) :
    (parseMessage lower now s).EventCategory = "logout.audit" := by
  have hlogin : (Contains (ToLower lower s) "login" || Contains (ToLower lower s) "logged on" ||
      Contains (ToLower lower s) "session opened") = true ↔ MentionsLogin (ToLower lower s) := by
    simp only [Bool.or_eq_true, Contains_iff, or_assoc, MentionsLogin]
  have hlogout : (Contains (ToLower lower s) "logout" ||
      Contains (ToLower lower s) "session closed" ||
      Contains (ToLower lower s) "terminated") = true := by
    simp only [Bool.or_eq_true, Contains_iff]
    rcases h with h | h
    · exact Or.inl (Or.inr (infix_ToLower lower hl _ (by decide) s h))
    · exact Or.inr (infix_ToLower lower hl _ (by decide) s h)
  rw [parseMessage_EventCategory, if_neg (fun c => hno (hlogin.1 c)), if_pos hlogout]

theorem agreesOnASCII_asciiLower : AgreesOnASCII asciiLower := fun _ _ => rfl

theorem C18_logout_without_login_witness :
    (parseMessage asciiLower 0 "sshd[811]: Session terminated by peer").EventCategory
      = "logout.audit" :=
  C18_logout_without_login asciiLower agreesOnASCII_asciiLower 0
    "sshd[811]: Session terminated by peer" (Or.inr (by decide)) (by decide)

end LogCollector

namespace LogServer

theorem sampleLib_sortContract : SortContract sampleLib := by
  intro less l
  refine ⟨List.perm_insertionSort _ l, fun hasymm htrans => ?_⟩
  haveI : IsTotal LogEntry (fun a b => less b a = false) := ⟨fun a b => by
    cases h : less b a with
    | false => exact Or.inl rfl
    | true => exact Or.inr (hasymm b a h)⟩
  haveI : IsTrans LogEntry (fun a b => less b a = false) :=
    ⟨fun a b c hab hbc => htrans c b a hbc hab⟩
  exact List.sorted_insertionSort (fun a b => less b a = false) l

theorem sampleLib_skipsNewline : SkipsNewline sampleLib := by
  intro stream
  show sampleDecode (newline :: stream) = sampleDecode stream
  simp [sampleDecode]

theorem sampleLib_eofAtEnd : EOFAtEnd sampleLib := rfl

theorem sampleLib_decodesMarshal : DecodesMarshal sampleLib := by
  intro e b hb stream
  change sampleMarshal e = .ok b at hb
  show sampleDecode (b ++ newline :: stream) = .ok (e, newline :: stream)
  unfold sampleMarshal at hb
  split_ifs at hb with h1 h2 h3
  · cases hb
    subst h2
    rfl
  · cases hb
    subst h3
    rfl

theorem matchQuery_iff (lib : Lib) (e : LogEntry) (params : List (String × String)) :
    matchQuery lib e params = true ↔ ∀ kv ∈ params, Satisfies lib e kv := by
  induction params with
  | nil => simp [matchQuery]
  | cons kv rest ih =>
    obtain ⟨k, v⟩ := kv
    rw [List.forall_mem_cons, ← ih]
    simp only [matchQuery, Satisfies]
    by_cases h1 : k = "service"
    · subst h1
      by_cases c : v = e.EventCategory <;> simp [c]
    · by_cases h2 : k = "level"
      · subst h2
        cases c : lib.EqualFold v e.Severity <;> simp [c]
      · by_cases h3 : k = "username"
        · subst h3
          by_cases c : v = e.Username <;> simp [c]
        · by_cases h4 : k = "is.blacklisted"
          · subst h4
            by_cases c : v = "true" <;> cases hb : e.IsBlacklisted <;> simp [c, hb]
          · simp [h1, h2, h3, h4]

theorem matchQuery_perm (lib : Lib) (e : LogEntry) {p q : List (String × String)}
    (h : p.Perm q) : matchQuery lib e p = matchQuery lib e q := by
  rw [Bool.eq_iff_iff, matchQuery_iff, matchQuery_iff]
  exact ⟨fun hp kv hkv => hp kv (h.mem_iff.2 hkv), fun hq kv hkv => hq kv (h.mem_iff.1 hkv)⟩

theorem filter_matchQuery (lib : Lib) (s : FileStorage) (params : List (String × String)) :
    s.cache.filter (fun e => matchQuery lib e params) = matching lib s params := by
  unfold matching
  congr 1
  funext e
  rw [Bool.eq_iff_iff, matchQuery_iff]
  simp

/-- The three stages of `Query`: filter, sort, truncate. -/
theorem Query_fst (lib : Lib) (s : FileStorage) (params : List (String × String)) (limit : Int)
    (sortKey : String) :
    (Query lib s params limit sortKey).1 =
      let res := if sortKey = "timestamp" then lib.Slice lessTimestamp (matching lib s params)
        else matching lib s params
      if limit > 0 ∧ (res.length : Int) > limit then res.take limit.toNat else res := by
  simp only [Query, filter_matchQuery]

/-- C6: with a limit that is not positive and a sort key other than
"timestamp", `Query` returns exactly the records of the mirror that satisfy
every entry of the filter, in append order, and no error: `service` asks for
equality with `EventCategory`, `level` for `EqualFold` with `Severity`,
`username` for equality with `Username`, `is.blacklisted` for agreement of
`v == "true"` with `IsBlacklisted`, and every other key is ignored. -/
theorem C6_query_filter (lib : Lib) (s : FileStorage) (params : List (String × String))
    (limit : Int) (sortKey : String) (hl : limit ≤ 0) (hs : sortKey ≠ "timestamp") :
    Query lib s params limit sortKey =
      (s.cache.filter (fun e => decide (∀ kv ∈ params, Satisfies lib e kv)), none) := by
  have h : ¬ (limit > 0) := not_lt.2 hl
  simp only [Query, filter_matchQuery, if_neg hs]
  rw [if_neg (fun c => h c.1)]
  rfl

theorem C6_query_filter_witness :
    Query sampleLib sampleStore [("level", "info"), ("service", "login.audit"), ("host", "x")]
      (-1) "time" = ([sampleLogin, sampleLogin], none) :=
  C6_query_filter sampleLib sampleStore
    [("level", "info"), ("service", "login.audit"), ("host", "x")] (-1) "time"
    (by decide) (by decide)

theorem lessTimestamp_asymm (a b : LogEntry) (h : lessTimestamp a b = true) :
    lessTimestamp b a = false := by
  simp only [lessTimestamp, decide_eq_true_eq, decide_eq_false_iff_not] at *
  omega

theorem lessTimestamp_negTrans (a b c : LogEntry) (h1 : lessTimestamp a b = false)
    (h2 : lessTimestamp b c = false) : lessTimestamp a c = false := by
  simp only [lessTimestamp, decide_eq_false_iff_not] at *
  omega

theorem sorted_of_contract (lib : Lib) (hsort : SortContract lib) (l : List LogEntry) :
    (lib.Slice lessTimestamp l).Pairwise (fun a b => a.Timestamp ≤ b.Timestamp) := by
  have h := (hsort lessTimestamp l).2 lessTimestamp_asymm lessTimestamp_negTrans
  refine h.imp ?_
  intro a b hab
  simpa [lessTimestamp] using hab

/-- C7: when `sort.Slice` meets its contract, `Query` with the sort key
"timestamp" and a limit that is not positive returns a rearrangement of the
matching records in which time stamps never decrease; with any other sort
key it returns the matching records in append order (all of them, or the
first `limit` of them when the limit is positive). -/
theorem C7_query_order (lib : Lib) (hsort : SortContract lib) (s : FileStorage)
    (params : List (String × String)) (limit : Int) (sortKey : String) :
    (sortKey = "timestamp" → limit ≤ 0 →
      (Query lib s params limit sortKey).1.Perm
        (s.cache.filter (fun e => decide (∀ kv ∈ params, Satisfies lib e kv))) ∧
      (Query lib s params limit sortKey).1.Pairwise (fun a b => a.Timestamp ≤ b.Timestamp)) ∧
    (sortKey ≠ "timestamp" →
      (Query lib s params limit sortKey).1 =
        if limit > 0 then
          (s.cache.filter (fun e => decide (∀ kv ∈ params, Satisfies lib e kv))).take limit.toNat
        else s.cache.filter (fun e => decide (∀ kv ∈ params, Satisfies lib e kv))) := by
  rw [Query_fst]
  constructor
  · intro hs hl
    have h : ¬ (limit > 0) := not_lt.2 hl
    simp only [if_pos hs]
    rw [if_neg (fun c => h c.1)]
    exact ⟨(hsort _ _).1, sorted_of_contract lib hsort _⟩
  · intro hs
    simp only [if_neg hs]
    change (if limit > 0 ∧ ((matching lib s params).length : Int) > limit then
      (matching lib s params).take limit.toNat else matching lib s params) =
      if limit > 0 then (matching lib s params).take limit.toNat else matching lib s params
    by_cases h : limit > 0
    · rw [if_pos h]
      by_cases h2 : ((matching lib s params).length : Int) > limit
      · rw [if_pos ⟨h, h2⟩]
      · rw [if_neg (fun c => h2 c.2)]
        symm
        apply List.take_of_length_le
        omega
    · rw [if_neg h, if_neg (fun c => h c.1)]

theorem C7_query_order_witness :
    ((Query sampleLib sampleStore [("is.blacklisted", "false")] 0 "timestamp").1.Perm
        [sampleLogin, sampleLogin] ∧
      (Query sampleLib sampleStore [("is.blacklisted", "false")] 0 "timestamp").1.Pairwise
        (fun a b => a.Timestamp ≤ b.Timestamp)) ∧
    (Query sampleLib sampleStore [] 2 "").1 = [sampleLogin, sampleEvent] :=
  ⟨(C7_query_order sampleLib sampleLib_sortContract sampleStore [("is.blacklisted", "false")] 0
      "timestamp").1 (by decide) (by decide),
    (C7_query_order sampleLib sampleLib_sortContract sampleStore [] 2 "").2 (by decide)⟩

/-- C8: for a positive limit `K`, `Query` returns the first `min K n`
entries of the result of the same query with limit 0, `n` being the length
of that result; for a limit that is not positive it returns all matches.
With the sort key "timestamp" and `sort.Slice` meeting its contract, the
records returned for a positive `K` are earliest ones: they are in time
order and no matching record left out is earlier than a record returned. -/
theorem C8_query_limit (lib : Lib) (hsort : SortContract lib) (s : FileStorage)
    (params : List (String × String)) (K : Int) (sortKey : String) :
    (0 < K →
      (Query lib s params K sortKey).1 =
        (Query lib s params 0 sortKey).1.take
          (min K.toNat (Query lib s params 0 sortKey).1.length)) ∧
    (K ≤ 0 →
      (Query lib s params K sortKey).1 = (Query lib s params 0 sortKey).1 ∧
      (Query lib s params K sortKey).1.Perm
        (s.cache.filter (fun e => decide (∀ kv ∈ params, Satisfies lib e kv)))) ∧
    (0 < K → sortKey = "timestamp" →
      ∃ later,
        ((Query lib s params K sortKey).1 ++ later).Perm
          (s.cache.filter (fun e => decide (∀ kv ∈ params, Satisfies lib e kv))) ∧
        (Query lib s params K sortKey).1.Pairwise (fun a b => a.Timestamp ≤ b.Timestamp) ∧
        ∀ a ∈ (Query lib s params K sortKey).1, ∀ b ∈ later, a.Timestamp ≤ b.Timestamp) := by
  have h0 : ∀ res : List LogEntry,
      (if (0 : Int) > 0 ∧ (res.length : Int) > 0 then res.take (0 : Int).toNat else res) = res := by
    intro res
    rw [if_neg (fun c => absurd c.1 (by decide))]
  have hK : ∀ res : List LogEntry, 0 < K →
      (if K > 0 ∧ (res.length : Int) > K then res.take K.toNat else res) = res.take K.toNat := by
    intro res hpos
    by_cases h2 : (res.length : Int) > K
    · rw [if_pos ⟨hpos, h2⟩]
    · rw [if_neg (fun c => h2 c.2)]
      symm
      apply List.take_of_length_le
      omega
  simp only [Query_fst, h0]
  refine ⟨fun hpos => ?_, fun hle => ?_, fun hpos hs => ?_⟩
  · rw [hK _ hpos, List.take_eq_take]
    simp
  · have h : ¬ (K > 0) := not_lt.2 hle
    rw [if_neg (fun c => h c.1)]
    refine ⟨rfl, ?_⟩
    by_cases hs : sortKey = "timestamp"
    · rw [if_pos hs]; exact (hsort _ _).1
    · rw [if_neg hs]; exact List.Perm.refl _
  · rw [hK _ hpos, if_pos hs]
    refine ⟨(lib.Slice lessTimestamp (matching lib s params)).drop K.toNat, ?_, ?_, ?_⟩
    · rw [List.take_append_drop]; exact (hsort _ _).1
    · exact (sorted_of_contract lib hsort _).sublist (List.take_sublist _ _)
    · have hp := sorted_of_contract lib hsort (matching lib s params)
      rw [← List.take_append_drop K.toNat (lib.Slice lessTimestamp (matching lib s params)),
        List.pairwise_append] at hp
      exact hp.2.2

theorem C8_query_limit_witness :
    (Query sampleLib sampleStore [] 2 "timestamp").1 =
      (Query sampleLib sampleStore [] 0 "timestamp").1.take
        (min (2 : Int).toNat (Query sampleLib sampleStore [] 0 "timestamp").1.length) ∧
    ((Query sampleLib sampleStore [] (-3) "timestamp").1 =
        (Query sampleLib sampleStore [] 0 "timestamp").1 ∧
      (Query sampleLib sampleStore [] (-3) "timestamp").1.Perm
        (sampleStore.cache.filter (fun e => decide (∀ kv ∈ [], Satisfies sampleLib e kv)))) ∧
    ∃ later,
      ((Query sampleLib sampleStore [] 2 "timestamp").1 ++ later).Perm
        (sampleStore.cache.filter (fun e => decide (∀ kv ∈ [], Satisfies sampleLib e kv))) ∧
      (Query sampleLib sampleStore [] 2 "timestamp").1.Pairwise
        (fun a b => a.Timestamp ≤ b.Timestamp) ∧
      ∀ a ∈ (Query sampleLib sampleStore [] 2 "timestamp").1, ∀ b ∈ later,
        a.Timestamp ≤ b.Timestamp :=
  ⟨(C8_query_limit sampleLib sampleLib_sortContract sampleStore [] 2 "timestamp").1 (by decide),
    (C8_query_limit sampleLib sampleLib_sortContract sampleStore [] (-3) "timestamp").2.1
      (by decide),
    (C8_query_limit sampleLib sampleLib_sortContract sampleStore [] 2 "timestamp").2.2
      (by decide) rfl⟩

/-- C9: `Save` appends the record to the mirror only when the file was
opened and written: when `os.OpenFile` or `f.Write` fails, `Save` returns
that error and the store is unchanged, so that `Query`, `Count` and the two
group-by operations answer as before; when the write succeeds `Save`
returns no error and the mirror is the old mirror followed by the record. -/
theorem C9_save (lib : Lib) (s : FileStorage) (disk : Disk) (e : LogEntry) :
    (∀ err, Save lib (.openFails err) s disk e = (s, disk, some err)) ∧
    (∀ written err,
      (Save lib (.writeFails written err) s disk e).2.2 = some err ∧
      (Save lib (.writeFails written err) s disk e).1 = s) ∧
    ((Save lib .succeeds s disk e).2.2 = none ∧
      (Save lib .succeeds s disk e).1.cache = s.cache ++ [e]) ∧
    (∀ io, (Save lib io s disk e).2.2 ≠ none →
      (Save lib io s disk e).1.cache = s.cache ∧
      (∀ params limit sortKey,
        Query lib (Save lib io s disk e).1 params limit sortKey =
          Query lib s params limit sortKey) ∧
      Count (Save lib io s disk e).1 = Count s ∧
      GroupByCategory (Save lib io s disk e).1 = GroupByCategory s ∧
      GroupBySeverity (Save lib io s disk e).1 = GroupBySeverity s) := by
  refine ⟨fun _ => rfl, fun _ _ => ⟨rfl, rfl⟩, ⟨rfl, rfl⟩, ?_⟩
  intro io h
  cases io with
  | openFails err => exact ⟨rfl, fun _ _ _ => rfl, rfl, rfl, rfl⟩
  | writeFails n err => exact ⟨rfl, fun _ _ _ => rfl, rfl, rfl, rfl⟩
  | succeeds => exact absurd rfl h

theorem C9_save_witness :
    (Save sampleLib (.writeFails 1 "no space left on device") sampleStore Disk.empty
        sampleEvent).1.cache = sampleStore.cache ∧
    Count (Save sampleLib (.openFails "permission denied") sampleStore Disk.empty
        sampleEvent).1 = 3 :=
  ⟨((C9_save sampleLib sampleStore Disk.empty sampleEvent).2.2.2
      (.writeFails 1 "no space left on device") (by decide)).1,
    ((C9_save sampleLib sampleStore Disk.empty sampleEvent).2.2.2
      (.openFails "permission denied") (by decide)).2.2.1⟩

theorem replay_newline (lib : Lib) (hskip : SkipsNewline lib) (fuel : Nat) (stream : Bytes)
    (cache : List LogEntry) :
    replay lib fuel (newline :: stream) cache = replay lib fuel stream cache := by
  cases fuel with
  | zero => rfl
  | succ n => simp only [replay, hskip stream]

theorem replay_savedBytes (lib : Lib) (hskip : SkipsNewline lib) (heof : EOFAtEnd lib)
    (hdec : DecodesMarshal lib) (es : List LogEntry)
    (hes : ∀ e ∈ es, ∃ b, lib.Marshal e = .ok b) (fuel : Nat) (hf : es.length < fuel)
    (cache : List LogEntry) :
    replay lib fuel (savedBytes lib es) cache = cache ++ es := by
  induction es generalizing fuel cache with
  | nil =>
    cases fuel with
    | zero => exact absurd hf (by simp)
    | succ n =>
      simp only [savedBytes, replay, List.append_nil]
      rw [heof]
  | cons e es ih =>
    cases fuel with
    | zero => exact absurd hf (by simp)
    | succ n =>
      obtain ⟨b, hb⟩ := hes e (List.mem_cons_self _ _)
      have hd := hdec e b hb (savedBytes lib es)
      simp only [savedBytes, saveData, hb, List.append_assoc, List.singleton_append, replay,
        hd]
      rw [replay_newline lib hskip, ih (fun x hx => hes x (List.mem_cons_of_mem _ hx)) n
        (by simpa using hf)]
      simp

theorem length_le_savedBytes (lib : Lib) (es : List LogEntry) :
    es.length ≤ (savedBytes lib es).length := by
  induction es with
  | nil => simp [savedBytes]
  | cons e es ih =>
    simp only [savedBytes, saveData, List.length_cons, List.length_append, List.length_nil]
    omega

theorem saveAll_cache (lib : Lib) (es : List LogEntry) (s : FileStorage) (disk : Disk) :
    (saveAll lib es (s, disk)).1.cache = s.cache ++ es ∧
    (saveAll lib es (s, disk)).1.path = s.path := by
  induction es generalizing s disk with
  | nil => simp [saveAll]
  | cons e es ih =>
    simp only [saveAll, Save]
    rw [(ih _ _).1, (ih _ _).2]
    simp

theorem saveAll_disk (lib : Lib) (es : List LogEntry) (s : FileStorage) (disk : Disk) :
    (saveAll lib es (s, disk)).2 s.path =
      if es = [] then disk s.path else some ((disk s.path).getD [] ++ savedBytes lib es) := by
  induction es generalizing s disk with
  | nil => simp [saveAll]
  | cons e es ih =>
    simp only [saveAll, Save]
    have := ih { s with cache := s.cache ++ [e] } (disk.append s.path (saveData lib e))
    simp only at this
    rw [this]
    by_cases hes : es = []
    · simp [hes, Disk.append, savedBytes]
    · simp [hes, Disk.append, savedBytes]

theorem NewFileStorage_some (lib : Lib) (disk : Disk) (path : String) (content : Bytes)
    (h : disk path = some content) :
    NewFileStorage lib disk path =
      { path := path, cache := replay lib (content.length + 1) content [] } := by
  simp only [NewFileStorage, h]

/-- Reloading after successful saves of encodable records, starting from an
absent or empty file, gives the saved records back in their order. -/
theorem reload_after_saveAll (lib : Lib) (hskip : SkipsNewline lib) (heof : EOFAtEnd lib)
    (hdec : DecodesMarshal lib) (path : String) (disk : Disk)
    (hdisk : (disk path).getD [] = []) (es : List LogEntry)
    (hes : ∀ e ∈ es, ∃ b, lib.Marshal e = .ok b) :
    (saveAll lib es (NewFileStorage lib disk path, disk)).1.cache = es ∧
    (NewFileStorage lib (saveAll lib es (NewFileStorage lib disk path, disk)).2 path).cache
      = es := by
  have hnew : (NewFileStorage lib disk path).cache = [] ∧
      (NewFileStorage lib disk path).path = path := by
    unfold NewFileStorage
    cases hd : disk path with
    | none => exact ⟨rfl, rfl⟩
    | some c =>
      rw [hd] at hdisk
      simp only [Option.getD_some] at hdisk
      subst hdisk
      simp only [replay, List.length_nil, and_true]
      rw [heof]
  constructor
  · rw [(saveAll_cache _ _ _ _).1, hnew.1]
    rfl
  · have h := saveAll_disk lib es (NewFileStorage lib disk path) disk
    rw [hnew.2] at h
    by_cases hne : es = []
    · subst hne
      exact hnew.1
    · rw [if_neg hne, hdisk, List.nil_append] at h
      rw [NewFileStorage_some lib _ path _ h]
      simp only
      rw [replay_savedBytes lib hskip heof hdec es hes _ (by
        have := length_le_savedBytes lib es
        omega)]
      rfl

theorem reload_after_saveAll_example :
    (NewFileStorage sampleLib
      (saveAll sampleLib [sampleLogin, sampleEvent, sampleLogin]
        (NewFileStorage sampleLib Disk.empty "/data/logs.jsonl", Disk.empty)).2
      "/data/logs.jsonl").cache = [sampleLogin, sampleEvent, sampleLogin] :=
  (reload_after_saveAll sampleLib sampleLib_skipsNewline sampleLib_eofAtEnd
    sampleLib_decodesMarshal "/data/logs.jsonl" Disk.empty rfl
    [sampleLogin, sampleEvent, sampleLogin] (by
      intro e he
      simp only [List.mem_cons, List.mem_singleton, List.not_mem_nil, or_false] at he
      rcases he with rfl | rfl | rfl
      · exact ⟨[76], rfl⟩
      · exact ⟨[69], rfl⟩
      · exact ⟨[76], rfl⟩)).2

/-- C10, at a record that `json.Marshal` refuses: `Save` discards the
error of `Marshal`, writes a lone newline, returns no error and appends the
record to the mirror; rebuilding the store from the file then gives an empty
mirror, so the round trip fails for this record. -/
theorem C10_unencodable_record_lost (lib : Lib) (hskip : SkipsNewline lib) (heof : EOFAtEnd lib)
    (path : String) (e : LogEntry) (err : Error) (hm : lib.Marshal e = .error err) :
    (Save lib .succeeds (NewFileStorage lib Disk.empty path) Disk.empty e).2.2 = none ∧
    (Save lib .succeeds (NewFileStorage lib Disk.empty path) Disk.empty e).1.cache = [e] ∧
    (Save lib .succeeds (NewFileStorage lib Disk.empty path) Disk.empty e).2.1 path
      = some [newline] ∧
    (NewFileStorage lib
      (Save lib .succeeds (NewFileStorage lib Disk.empty path) Disk.empty e).2.1 path).cache
      = [] := by
  have hfile : (Save lib .succeeds (NewFileStorage lib Disk.empty path) Disk.empty e).2.1 path
      = some [newline] := by
    simp [Save, NewFileStorage, Disk.empty, Disk.append, saveData, hm]
  refine ⟨rfl, rfl, hfile, ?_⟩
  rw [NewFileStorage_some lib _ path _ hfile]
  simp only [replay, List.length_singleton]
  rw [hskip, heof]

theorem C10_unencodable_record_lost_witness :
    (Save sampleLib .succeeds (NewFileStorage sampleLib Disk.empty "/data/logs.jsonl")
        Disk.empty sampleYear10000).2.2 = none ∧
    (Save sampleLib .succeeds (NewFileStorage sampleLib Disk.empty "/data/logs.jsonl")
        Disk.empty sampleYear10000).1.cache = [sampleYear10000] ∧
    (Save sampleLib .succeeds (NewFileStorage sampleLib Disk.empty "/data/logs.jsonl")
        Disk.empty sampleYear10000).2.1 "/data/logs.jsonl" = some [newline] ∧
    (NewFileStorage sampleLib
      (Save sampleLib .succeeds (NewFileStorage sampleLib Disk.empty "/data/logs.jsonl")
        Disk.empty sampleYear10000).2.1 "/data/logs.jsonl").cache = [] :=
  C10_unencodable_record_lost sampleLib sampleLib_skipsNewline sampleLib_eofAtEnd
    "/data/logs.jsonl" sampleYear10000 "Time.MarshalJSON: year outside of range [0,9999]" rfl

theorem Replays_unique (lib : Lib) {stream : Bytes} {es1 es2 : List LogEntry}
    (h1 : Replays lib stream es1) (h2 : Replays lib stream es2) : es1 = es2 := by
  induction h1 generalizing es2 with
  | stop hd1 =>
    cases h2 with
    | stop _ => rfl
    | step hd2 _ => rw [hd1] at hd2; exact Except.noConfusion hd2
  | step hd1 _ ih =>
    cases h2 with
    | stop hd2 => rw [hd1] at hd2; exact Except.noConfusion hd2
    | step hd2 hr2 =>
      rw [hd1] at hd2
      cases hd2
      rw [ih hr2]

theorem replay_spec (lib : Lib) (hprog : DecodeProgress lib) (fuel : Nat) (stream : Bytes)
    (cache : List LogEntry) (hf : stream.length < fuel) :
    ∃ es, Replays lib stream es ∧ replay lib fuel stream cache = cache ++ es := by
  induction fuel generalizing stream cache with
  | zero => exact absurd hf (Nat.not_lt_zero _)
  | succ n ih =>
    cases hd : lib.Decode stream with
    | error err =>
      exact ⟨[], Replays.stop hd, by simp [replay, hd]⟩
    | ok v =>
      obtain ⟨e, rest⟩ := v
      have hlt := hprog stream e rest hd
      obtain ⟨es, hes, heq⟩ := ih rest (cache ++ [e]) (by omega)
      exact ⟨e :: es, Replays.step hd hes, by simp [replay, hd, heq]⟩

/-- C11: `NewFileStorage` replays the file from its beginning and stops at
the first `Decode` that fails: the rebuilt mirror holds exactly the records
decoded before that point, in file order; whatever follows is dropped, and a
store is returned in every case (the function has no error result).
Without a file the mirror is empty. -/
theorem C11_replay_stops (lib : Lib) (hprog : DecodeProgress lib) (disk : Disk) (path : String) :
    (NewFileStorage lib disk path).path = path ∧
    (∀ content, disk path = some content →
      Replays lib content (NewFileStorage lib disk path).cache ∧
      ∀ es, Replays lib content es → (NewFileStorage lib disk path).cache = es) ∧
    (disk path = none → (NewFileStorage lib disk path).cache = []) := by
  refine ⟨?_, ?_, ?_⟩
  · unfold NewFileStorage
    cases disk path <;> rfl
  · intro content hc
    rw [NewFileStorage_some lib disk path content hc]
    obtain ⟨es, hes, heq⟩ := replay_spec lib hprog (content.length + 1) content [] (by omega)
    simp only [List.nil_append] at heq
    simp only [heq]
    exact ⟨hes, fun es2 h2 => Replays_unique lib hes h2⟩
  · intro hn
    simp only [NewFileStorage, hn]

theorem sampleLib_decodeProgress : DecodeProgress sampleLib := by
  intro stream
  show ∀ e rest, sampleDecode stream = .ok (e, rest) → rest.length < stream.length
  induction stream with
  | nil => intro e rest h; simp [sampleDecode] at h
  | cons b bs ih =>
    intro e rest h
    simp only [sampleDecode] at h
    split_ifs at h with h1 h2 h3
    · have := ih e rest h
      simp only [List.length_cons]
      omega
    · cases h; simp
    · cases h; simp

theorem C11_replay_stops_witness :
    Replays sampleLib [76, 10, 69, 10, 63, 76, 10]
      (NewFileStorage sampleLib (Disk.empty.append "/data/logs.jsonl" [76, 10, 69, 10, 63, 76, 10])
        "/data/logs.jsonl").cache ∧
    (NewFileStorage sampleLib (Disk.empty.append "/data/logs.jsonl" [76, 10, 69, 10, 63, 76, 10])
      "/data/logs.jsonl").cache = [sampleLogin, sampleEvent] :=
  ⟨((C11_replay_stops sampleLib sampleLib_decodeProgress
      (Disk.empty.append "/data/logs.jsonl" [76, 10, 69, 10, 63, 76, 10]) "/data/logs.jsonl").2.1
      [76, 10, 69, 10, 63, 76, 10] (by decide)).1,
    ((C11_replay_stops sampleLib sampleLib_decodeProgress
      (Disk.empty.append "/data/logs.jsonl" [76, 10, 69, 10, 63, 76, 10]) "/data/logs.jsonl").2.1
      [76, 10, 69, 10, 63, 76, 10] (by decide)).2 [sampleLogin, sampleEvent]
      (@Replays.step sampleLib _ [10, 69, 10, 63, 76, 10] _ _ rfl
        (@Replays.step sampleLib _ [10, 63, 76, 10] _ _ rfl
          (@Replays.stop sampleLib _ "invalid character" rfl)))⟩

theorem lookup_incr (m : CountMap) (k v : String) :
    (m.incr k).lookup v =
      if v = k then some ((m.lookup k).getD 0 + 1) else m.lookup v := by
  induction m with
  | nil =>
    by_cases h : v = k
    · subst h; simp [CountMap.incr, List.lookup]
    · have hb : (v == k) = false := by simpa using h
      simp [CountMap.incr, List.lookup, h, hb]
  | cons kn rest ih =>
    obtain ⟨k1, n⟩ := kn
    simp only [CountMap.incr]
    by_cases h1 : k1 = k
    · subst h1
      by_cases h : v = k1
      · subst h; simp [List.lookup]
      · have hb : (v == k1) = false := by simpa using h
        simp [List.lookup, h, hb]
    · rw [if_neg h1]
      by_cases hv : v = k1
      · subst hv
        have hk : ¬ v = k := h1
        have hb : (k == v) = false := by simpa using fun c : k = v => h1 c.symm
        simp [List.lookup, hk, hb]
      · have hb : (v == k1) = false := by simpa using hv
        have hb2 : (k == k1) = false := by simpa using fun c : k = k1 => h1 c.symm
        simp only [List.lookup, hb, hb2]
        exact ih

theorem keys_incr (m : CountMap) (k : String) (v : String) :
    v ∈ (m.incr k).map Prod.fst ↔ v = k ∨ v ∈ m.map Prod.fst := by
  induction m with
  | nil => simp [CountMap.incr]
  | cons kn rest ih =>
    obtain ⟨k1, n⟩ := kn
    simp only [CountMap.incr]
    by_cases h1 : k1 = k
    · subst h1; simp
    · rw [if_neg h1]
      simp only [List.map_cons, List.mem_cons, ih]
      tauto

theorem nodup_incr (m : CountMap) (k : String) (h : (m.map Prod.fst).Nodup) :
    ((m.incr k).map Prod.fst).Nodup := by
  induction m with
  | nil => simp [CountMap.incr]
  | cons kn rest ih =>
    obtain ⟨k1, n⟩ := kn
    simp only [CountMap.incr]
    by_cases h1 : k1 = k
    · subst h1; simpa using h
    · rw [if_neg h1]
      simp only [List.map_cons, List.nodup_cons] at h ⊢
      refine ⟨?_, ih h.2⟩
      rw [keys_incr]
      rintro (c | c)
      · exact h1 c
      · exact h.1 c

/-- The map built by the loop `for _, e := range cache { m[f(e)]++ }`. -/
theorem groupBy_spec (f : LogEntry → String) (cache : List LogEntry) (m : CountMap)
    (hm : (m.map Prod.fst).Nodup) :
    ((cache.foldl (fun m e => m.incr (f e)) m).map Prod.fst).Nodup ∧
    ∀ v, (cache.foldl (fun m e => m.incr (f e)) m).lookup v =
      if cache.countP (fun e => decide (f e = v)) = 0 then m.lookup v
      else some ((m.lookup v).getD 0 + (cache.countP (fun e => decide (f e = v)) : Nat)) := by
  induction cache generalizing m with
  | nil => exact ⟨hm, fun v => by simp⟩
  | cons e es ih =>
    obtain ⟨h1, h2⟩ := ih (m.incr (f e)) (nodup_incr m (f e) hm)
    refine ⟨h1, fun v => ?_⟩
    simp only [List.foldl_cons]
    rw [h2 v, lookup_incr]
    by_cases hv : f e = v
    · subst hv
      simp only [if_true, List.countP_cons, decide_True]
      by_cases hc : List.countP (fun e1 => decide (f e1 = f e)) es = 0
      · simp [hc]
      · simp only [hc, if_false, Nat.add_eq_zero, and_false, Option.getD_some]
        simp only [one_ne_zero, and_false, if_false, Nat.cast_add, Nat.cast_one]
        congr 1
        ring
    · have hv2 : ¬ v = f e := fun c => hv c.symm
      simp only [hv2, if_false, List.countP_cons, hv, decide_False, Bool.false_eq_true,
        add_zero]

theorem groupBy_keys (f : LogEntry → String) (cache : List LogEntry) (m : CountMap) (v : String) :
    v ∈ (cache.foldl (fun m e => m.incr (f e)) m).map Prod.fst ↔
      v ∈ m.map Prod.fst ∨ ∃ e ∈ cache, f e = v := by
  induction cache generalizing m with
  | nil => simp
  | cons e es ih =>
    simp only [List.foldl_cons, ih, keys_incr, List.mem_cons, exists_eq_or_imp]
    constructor
    · rintro ((h | h) | h)
      · exact Or.inr (Or.inl h.symm)
      · exact Or.inl h
      · exact Or.inr (Or.inr h)
    · rintro (h | h | h)
      · exact Or.inl (Or.inr h)
      · exact Or.inl (Or.inl h.symm)
      · exact Or.inr h

theorem groupBy_get (f : LogEntry → String) (cache : List LogEntry) (v : String) :
    CountMap.get (cache.foldl (fun m e => m.incr (f e)) []) v =
      (cache.countP (fun e => decide (f e = v)) : Nat) := by
  unfold CountMap.get
  rw [(groupBy_spec f cache [] (by simp)).2 v]
  by_cases hc : cache.countP (fun e => decide (f e = v)) = 0
  · simp [hc]
  · simp [hc]

/-- C12: `GroupByCategory` maps every string `v` to the number of records of
the mirror whose `EventCategory` is `v`, and `GroupBySeverity` to the number
whose `Severity` is `v`; a key is present exactly when its value occurs in
the mirror (so the empty string is a key when some record has it), and no
key is repeated.  After saving two records of category `login.audit` and one
of category `event`, in any order, into a new store, `Count` is 3 and
`GroupByCategory` is `{"login.audit": 2, "event": 1}`. -/
theorem C12_groupBy (lib : Lib) (s : FileStorage) (v : String) :
    (GroupByCategory s).get v =
      (s.cache.countP (fun e => decide (e.EventCategory = v)) : Nat) ∧
    (GroupBySeverity s).get v = (s.cache.countP (fun e => decide (e.Severity = v)) : Nat) ∧
    (v ∈ (GroupByCategory s).map Prod.fst ↔ ∃ e ∈ s.cache, e.EventCategory = v) ∧
    (v ∈ (GroupBySeverity s).map Prod.fst ↔ ∃ e ∈ s.cache, e.Severity = v) ∧
    ((GroupByCategory s).map Prod.fst).Nodup ∧ ((GroupBySeverity s).map Prod.fst).Nodup ∧
    (∀ (path : String) (a b c : LogEntry) (es : List LogEntry),
      a.EventCategory = "login.audit" → b.EventCategory = "login.audit" →
      c.EventCategory = "event" → es.Perm [a, b, c] →
      Count (saveAll lib es (NewFileStorage lib Disk.empty path, Disk.empty)).1 = 3 ∧
      (GroupByCategory (saveAll lib es (NewFileStorage lib Disk.empty path, Disk.empty)).1).get
        "login.audit" = 2 ∧
      (GroupByCategory (saveAll lib es (NewFileStorage lib Disk.empty path, Disk.empty)).1).get
        "event" = 1 ∧
      ∀ k, k ∈ (GroupByCategory
          (saveAll lib es (NewFileStorage lib Disk.empty path, Disk.empty)).1).map Prod.fst ↔
        k = "login.audit" ∨ k = "event") := by
  refine ⟨groupBy_get _ _ v, groupBy_get _ _ v, ?_, ?_, ?_, ?_, ?_⟩
  · simpa using groupBy_keys (fun e => e.EventCategory) s.cache [] v
  · simpa using groupBy_keys (fun e => e.Severity) s.cache [] v
  · exact (groupBy_spec _ _ [] (by simp)).1
  · exact (groupBy_spec _ _ [] (by simp)).1
  · intro path a b c es ha hb hc hp
    have hcache : (saveAll lib es (NewFileStorage lib Disk.empty path, Disk.empty)).1.cache
        = es := by
      rw [(saveAll_cache lib es _ _).1]
      rfl
    have hcount : ∀ w : String, es.countP (fun e => decide (e.EventCategory = w)) =
        [a, b, c].countP (fun e => decide (e.EventCategory = w)) := fun w => hp.countP_eq _
    refine ⟨?_, ?_, ?_, ?_⟩
    · simp only [Count, hcache, hp.length_eq]
      rfl
    · unfold GroupByCategory
      rw [groupBy_get, hcache, hcount]
      simp [List.countP_cons, ha, hb, hc]
    · unfold GroupByCategory
      rw [groupBy_get, hcache, hcount]
      simp [List.countP_cons, ha, hb, hc]
    · intro k
      unfold GroupByCategory
      rw [groupBy_keys, hcache]
      simp only [List.map_nil, List.not_mem_nil, false_or]
      constructor
      · rintro ⟨e, he, rfl⟩
        have := hp.mem_iff.1 he
        simp only [List.mem_cons, List.mem_singleton, List.not_mem_nil, or_false] at this
        rcases this with rfl | rfl | rfl
        · exact Or.inl ha
        · exact Or.inl hb
        · exact Or.inr hc
      · rintro (rfl | rfl)
        · exact ⟨a, hp.mem_iff.2 (by simp), ha⟩
        · exact ⟨c, hp.mem_iff.2 (by simp), hc⟩

theorem C12_groupBy_witness :
    Count (saveAll sampleLib [sampleLogin, sampleEvent, sampleLogin]
      (NewFileStorage sampleLib Disk.empty "/data/logs.jsonl", Disk.empty)).1 = 3 ∧
    (GroupByCategory (saveAll sampleLib [sampleLogin, sampleEvent, sampleLogin]
      (NewFileStorage sampleLib Disk.empty "/data/logs.jsonl", Disk.empty)).1).get
        "login.audit" = 2 ∧
    (GroupByCategory (saveAll sampleLib [sampleLogin, sampleEvent, sampleLogin]
      (NewFileStorage sampleLib Disk.empty "/data/logs.jsonl", Disk.empty)).1).get
        "event" = 1 ∧
    ∀ k, k ∈ (GroupByCategory (saveAll sampleLib [sampleLogin, sampleEvent, sampleLogin]
        (NewFileStorage sampleLib Disk.empty "/data/logs.jsonl", Disk.empty)).1).map Prod.fst ↔
      k = "login.audit" ∨ k = "event" :=
  (C12_groupBy sampleLib sampleStore "").2.2.2.2.2.2 "/data/logs.jsonl" sampleLogin sampleLogin
    sampleEvent [sampleLogin, sampleEvent, sampleLogin] rfl rfl rfl
    (List.Perm.cons _ (List.Perm.swap _ _ _))

theorem Op.run_cache (lib : Lib) (op : Op) (st : FileStorage × Disk) :
    (op.run lib st).1.1.cache = st.1.cache ∨
    ∃ e, op = .save .succeeds e ∧ (op.run lib st).1.1.cache = st.1.cache ++ [e] := by
  cases op with
  | save io e =>
    cases io with
    | openFails err => exact Or.inl rfl
    | writeFails n err => exact Or.inl rfl
    | succeeds => exact Or.inr ⟨e, rfl, rfl⟩
  | query params limit sortKey => exact Or.inl rfl
  | count => exact Or.inl rfl
  | groupByCategory => exact Or.inl rfl
  | groupBySeverity => exact Or.inl rfl

theorem runAll_extends (lib : Lib) (ops : List Op) (st : FileStorage × Disk) :
    st.1.cache <+: (runAll lib ops st).1.cache := by
  induction ops generalizing st with
  | nil => exact List.prefix_refl _
  | cons op ops ih =>
    have h1 : st.1.cache <+: (op.run lib st).1.1.cache := by
      rcases Op.run_cache lib op st with h | ⟨e, _, h⟩
      · rw [h]
      · rw [h]; exact List.prefix_append _ _
    exact h1.trans (ih _)

/-- C13: the store is append-only.  For every call of `Save`, `Query`,
`Count`, `GroupByCategory` or `GroupBySeverity` the mirror before the call is
a prefix of the mirror after it; the mirror changes only in a successful
`Save`, which appends the one record; and over any sequence of calls every
record keeps its position and its content. -/
theorem C13_append_only (lib : Lib) (op : Op) (st : FileStorage × Disk) :
    st.1.cache <+: (op.run lib st).1.1.cache ∧
    ((op.run lib st).1.1.cache ≠ st.1.cache →
      ∃ e, op = .save .succeeds e ∧ (op.run lib st).1.1.cache = st.1.cache ++ [e]) ∧
    (∀ params limit sortKey, (Op.run lib (.query params limit sortKey) st).1 = st) ∧
    (Op.run lib .count st).1 = st ∧ (Op.run lib .groupByCategory st).1 = st ∧
    (Op.run lib .groupBySeverity st).1 = st ∧
    (∀ ops : List Op, st.1.cache <+: (runAll lib ops st).1.cache ∧
      ∀ (i : Nat) (e : LogEntry), st.1.cache[i]? = some e →
        (runAll lib ops st).1.cache[i]? = some e) := by
  refine ⟨?_, ?_, fun _ _ _ => rfl, rfl, rfl, rfl, ?_⟩
  · rcases Op.run_cache lib op st with h | ⟨e, _, h⟩
    · rw [h]
    · rw [h]; exact List.prefix_append _ _
  · intro hne
    rcases Op.run_cache lib op st with h | h
    · exact absurd h hne
    · exact h
  · intro ops
    refine ⟨runAll_extends lib ops st, ?_⟩
    intro i e hi
    obtain ⟨t, ht⟩ := runAll_extends lib ops st
    rw [← ht]
    have hlt : i < st.1.cache.length := by
      by_contra hge
      rw [List.getElem?_eq_none (Nat.le_of_not_lt hge)] at hi
      exact Option.noConfusion hi
    rw [List.getElem?_append_left hlt]
    exact hi

theorem C13_append_only_witness :
    (Op.run sampleLib (.query [] 2 "timestamp") (sampleStore, Disk.empty)).1.1.cache
      = sampleStore.cache ∧
    (runAll sampleLib [.query [] 0 "timestamp", .save .succeeds sampleEvent, .count,
        .save (.openFails "permission denied") sampleLogin]
      (sampleStore, Disk.empty)).1.cache[1]? = some sampleEvent :=
  ⟨by
      have h := (C13_append_only sampleLib (.query [] 2 "timestamp")
        (sampleStore, Disk.empty)).2.1
      by_contra hne
      obtain ⟨e, he, _⟩ := h hne
      exact Op.noConfusion he,
    ((C13_append_only sampleLib .count (sampleStore, Disk.empty)).2.2.2.2.2.2
      [.query [] 0 "timestamp", .save .succeeds sampleEvent, .count,
        .save (.openFails "permission denied") sampleLogin]).2 1 sampleEvent rfl⟩

theorem withDefaults_EventCategory (now : Int) (e : LogEntry) :
    (withDefaults now e).EventCategory =
      if e.EventCategory = "" then "unknown" else e.EventCategory := by
  unfold withDefaults
  simp only []
  split_ifs <;> simp_all

/-- The handler on a `POST` request whose body decodes: one call of `Save`
on the record with its defaults filled in. -/
theorem ingestHandler_post {σ : Type} (lib : Lib) (now : Int) (store : Storage σ) (r : Request)
    (st : σ) (hm : r.Method = "POST") (e : LogEntry) (rest : Bytes)
    (hd : lib.Decode r.Body = .ok (e, rest)) :
    ingestHandler lib now store r st =
      ((store.Save (withDefaults now e) st).1,
        match (store.Save (withDefaults now e) st).2 with
        | some err => httpError ("save error: " ++ err) 500
        | none => { status := 202, body := "" }) := by
  simp only [ingestHandler, hm, ne_eq, not_true_eq_false, if_false, hd]
  cases h : store.Save (withDefaults now e) st with
  | mk st1 err =>
    cases err <;> rfl

/-- C20: `ingestHandler` answers 405 to a method other than `POST` and 400
to a body that fails to decode, in both cases without a call of `Save` and
with the store as it was; otherwise it calls `Save` exactly once, on the
decoded record with its defaults filled in, and answers 202 if and only if
`Save` returns no error, and 500 if `Save` returns an error. -/
theorem C20_ingest {σ : Type} (lib : Lib) (now : Int) (store : Storage σ) (r : Request)
    (st : σ) :
    (r.Method ≠ "POST" →
      (ingestHandler lib now store.recording r (st, [])).1 = (st, []) ∧
      (ingestHandler lib now store.recording r (st, [])).2.status = 405) ∧
    (r.Method = "POST" → ∀ err, lib.Decode r.Body = .error err →
      (ingestHandler lib now store.recording r (st, [])).1 = (st, []) ∧
      (ingestHandler lib now store.recording r (st, [])).2.status = 400) ∧
    (r.Method = "POST" → ∀ e rest, lib.Decode r.Body = .ok (e, rest) →
      (ingestHandler lib now store.recording r (st, [])).1 =
        ((store.Save (withDefaults now e) st).1, [withDefaults now e]) ∧
      ((ingestHandler lib now store.recording r (st, [])).2.status = 202 ↔
        (store.Save (withDefaults now e) st).2 = none) ∧
      ((store.Save (withDefaults now e) st).2 ≠ none →
        (ingestHandler lib now store.recording r (st, [])).2.status = 500)) := by
  refine ⟨fun hm => ?_, fun hm err hd => ?_, fun hm e rest hd => ?_⟩
  · simp only [ingestHandler, ne_eq, hm, not_false_eq_true, if_true, httpError, and_self]
  · simp only [ingestHandler, hm, ne_eq, not_true_eq_false, if_false, hd, httpError, and_self]
  · rw [ingestHandler_post lib now store.recording r (st, []) hm e rest hd]
    simp only [Storage.recording, List.nil_append]
    cases h : (store.Save (withDefaults now e) st).2 with
    | none => simp
    | some err => simp [httpError]

theorem C20_ingest_witness :
    ((ingestHandler sampleLib 5 (fileStore sampleLib .succeeds).recording
        { Method := "GET", Body := [76, 10] } ((sampleStore, Disk.empty), [])).1.2 = [] ∧
      (ingestHandler sampleLib 5 (fileStore sampleLib .succeeds).recording
        { Method := "GET", Body := [76, 10] } ((sampleStore, Disk.empty), [])).2.status = 405) ∧
    ((ingestHandler sampleLib 5 (fileStore sampleLib .succeeds).recording
        { Method := "POST", Body := [63] } ((sampleStore, Disk.empty), [])).1.2 = [] ∧
      (ingestHandler sampleLib 5 (fileStore sampleLib .succeeds).recording
        { Method := "POST", Body := [63] } ((sampleStore, Disk.empty), [])).2.status = 400) ∧
    (ingestHandler sampleLib 5 (fileStore sampleLib .succeeds).recording
        { Method := "POST", Body := [69, 10] } ((sampleStore, Disk.empty), [])).1.2
      = [sampleEvent] ∧
    (ingestHandler sampleLib 5 (fileStore sampleLib (.openFails "permission denied")).recording
        { Method := "POST", Body := [69, 10] } ((sampleStore, Disk.empty), [])).2.status = 500 :=
  ⟨⟨congrArg Prod.snd ((C20_ingest sampleLib 5 (fileStore sampleLib .succeeds)
        { Method := "GET", Body := [76, 10] } (sampleStore, Disk.empty)).1 (by decide)).1,
      ((C20_ingest sampleLib 5 (fileStore sampleLib .succeeds)
        { Method := "GET", Body := [76, 10] } (sampleStore, Disk.empty)).1 (by decide)).2⟩,
    ⟨congrArg Prod.snd ((C20_ingest sampleLib 5 (fileStore sampleLib .succeeds)
        { Method := "POST", Body := [63] } (sampleStore, Disk.empty)).2.1 rfl
        "invalid character" rfl).1,
      ((C20_ingest sampleLib 5 (fileStore sampleLib .succeeds)
        { Method := "POST", Body := [63] } (sampleStore, Disk.empty)).2.1 rfl
        "invalid character" rfl).2⟩,
    congrArg Prod.snd ((C20_ingest sampleLib 5 (fileStore sampleLib .succeeds)
      { Method := "POST", Body := [69, 10] } (sampleStore, Disk.empty)).2.2 rfl
      sampleEvent [10] rfl).1,
    ((C20_ingest sampleLib 5 (fileStore sampleLib (.openFails "permission denied"))
      { Method := "POST", Body := [69, 10] } (sampleStore, Disk.empty)).2.2 rfl
      sampleEvent [10] rfl).2.2 (by decide)⟩

/-- C14: the event category is always set.  `parseMessage` yields one of
`login.audit`, `logout.audit` and `event`, never the empty string; and for a
`POST` request whose body decodes, the one record that `ingestHandler` hands
to `Save` has a non-empty category: that of the payload when it is not
empty, and `unknown` otherwise. -/
theorem C14_eventCategory_set {σ : Type} (lower : Char → Char) (now : Int) (s : String)
    (lib : Lib) (store : Storage σ) (r : Request) (st : σ) :
    ((LogCollector.parseMessage lower now s).EventCategory ≠ "" ∧
      ((LogCollector.parseMessage lower now s).EventCategory = "login.audit" ∨
        (LogCollector.parseMessage lower now s).EventCategory = "logout.audit" ∨
        (LogCollector.parseMessage lower now s).EventCategory = "event")) ∧
    (r.Method = "POST" → ∀ e rest, lib.Decode r.Body = .ok (e, rest) →
      ∃ e1, (ingestHandler lib now store.recording r (st, [])).1.2 = [e1] ∧
        e1.EventCategory ≠ "" ∧
        (e.EventCategory ≠ "" → e1.EventCategory = e.EventCategory) ∧
        (e.EventCategory = "" → e1.EventCategory = "unknown")) := by
  constructor
  · rw [LogCollector.parseMessage_EventCategory]
    split_ifs
    · exact ⟨by decide, Or.inl rfl⟩
    · exact ⟨by decide, Or.inr (Or.inl rfl)⟩
    · exact ⟨by decide, Or.inr (Or.inr rfl)⟩
  · intro hm e rest hd
    refine ⟨withDefaults now e, ?_, ?_, ?_, ?_⟩
    · rw [ingestHandler_post lib now store.recording r (st, []) hm e rest hd]
      simp only [Storage.recording, List.nil_append]
    · rw [withDefaults_EventCategory]
      split_ifs with h
      · decide
      · exact h
    · intro h
      rw [withDefaults_EventCategory, if_neg h]
    · intro h
      rw [withDefaults_EventCategory, if_pos h]

theorem C14_eventCategory_set_witness :
    ∃ e1, (ingestHandler sampleLib 5 (fileStore sampleLib .succeeds).recording
        { Method := "POST", Body := [69, 10] } ((sampleStore, Disk.empty), [])).1.2 = [e1] ∧
      e1.EventCategory ≠ "" ∧
      (sampleEvent.EventCategory ≠ "" → e1.EventCategory = sampleEvent.EventCategory) ∧
      (sampleEvent.EventCategory = "" → e1.EventCategory = "unknown") :=
  (C14_eventCategory_set Char.toLower 5 "reboot" sampleLib (fileStore sampleLib .succeeds)
    { Method := "POST", Body := [69, 10] } (sampleStore, Disk.empty)).2 rfl sampleEvent [10] rfl

theorem mem_matching (lib : Lib) (s : FileStorage) (params : List (String × String))
    (e : LogEntry) :
    e ∈ matching lib s params ↔ e ∈ s.cache ∧ ∀ kv ∈ params, Satisfies lib e kv := by
  simp [matching, List.mem_filter]

/-- C17: after a `Save` of `e` that returns no error, `Query` with a filter
that `e` satisfies (such as `{"username": e.Username}`), any limit and any
sort key returns a non-empty result, and with a limit that is not positive
the result contains `e`; `sort.Slice` is taken to rearrange its input. -/
theorem C17_saved_is_found (lib : Lib) (hsort : SortContract lib) (io : SaveOutcome)
    (s : FileStorage) (disk : Disk) (e : LogEntry) (params : List (String × String))
    (limit : Int) (sortKey : String) (hsave : (Save lib io s disk e).2.2 = none)
    (hsat : ∀ kv ∈ params, Satisfies lib e kv) :
    (Query lib (Save lib io s disk e).1 params limit sortKey).1 ≠ [] ∧
    (limit ≤ 0 → e ∈ (Query lib (Save lib io s disk e).1 params limit sortKey).1) ∧
    (∀ kv ∈ [("username", e.Username)], Satisfies lib e kv) := by
  have hio : io = .succeeds := by
    cases io with
    | openFails err => exact Option.noConfusion hsave
    | writeFails n err => exact Option.noConfusion hsave
    | succeeds => rfl
  subst hio
  have hmem : e ∈ matching lib (Save lib .succeeds s disk e).1 params := by
    rw [mem_matching]
    exact ⟨by simp [Save], hsat⟩
  have hres : e ∈ (if sortKey = "timestamp" then
      lib.Slice lessTimestamp (matching lib (Save lib .succeeds s disk e).1 params)
      else matching lib (Save lib .succeeds s disk e).1 params) := by
    split_ifs
    · exact (hsort _ _).1.mem_iff.2 hmem
    · exact hmem
  have key : ∀ res : List LogEntry, e ∈ res →
      (if limit > 0 ∧ (res.length : Int) > limit then res.take limit.toNat else res) ≠ [] ∧
      (limit ≤ 0 →
        e ∈ (if limit > 0 ∧ (res.length : Int) > limit then res.take limit.toNat else res)) := by
    intro res hr
    constructor
    · by_cases hc : limit > 0 ∧ (res.length : Int) > limit
      · rw [if_pos hc]
        intro hnil
        have hlen := congrArg List.length hnil
        simp only [List.length_take, List.length_nil] at hlen
        have h2 := List.length_pos_of_mem hr
        omega
      · rw [if_neg hc]
        exact List.ne_nil_of_mem hr
    · intro hl
      rw [if_neg (fun c => absurd c.1 (not_lt.2 hl))]
      exact hr
  refine ⟨?_, ?_, ?_⟩
  · rw [Query_fst]
    exact (key _ hres).1
  · rw [Query_fst]
    exact (key _ hres).2
  · intro kv hkv
    simp only [List.mem_singleton] at hkv
    subst hkv
    exact ⟨fun h => absurd (show "username" = "service" from h) (by decide),
      fun h => absurd (show "username" = "level" from h) (by decide), fun _ => rfl,
      fun h => absurd (show "username" = "is.blacklisted" from h) (by decide)⟩

theorem C17_saved_is_found_witness :
    (Query sampleLib (Save sampleLib .succeeds sampleStore Disk.empty sampleEvent).1
        [("username", "baduser")] 10 "timestamp").1 ≠ [] ∧
    sampleEvent ∈ (Query sampleLib (Save sampleLib .succeeds sampleStore Disk.empty sampleEvent).1
        [("username", "baduser")] 0 "timestamp").1 :=
  ⟨(C17_saved_is_found sampleLib sampleLib_sortContract .succeeds sampleStore Disk.empty
      sampleEvent [("username", "baduser")] 10 "timestamp" rfl (by decide)).1,
    (C17_saved_is_found sampleLib sampleLib_sortContract .succeeds sampleStore Disk.empty
      sampleEvent [("username", "baduser")] 0 "timestamp" rfl (by decide)).2.1 (by decide)⟩

/-- C19 refuted: on the thirteen records of `tieStore`, twelve of them at the
same instant, `Query` with the sort key "timestamp" returns the records in
time order but the tied records in an order other than the append order. -/
theorem C19_counterexample :
    (Query goLib tieStore [] 0 "timestamp").1.map (fun e => e.Username) =
      ["u12", "u06", "u02", "u03", "u04", "u05", "u00", "u07", "u08", "u09", "u10", "u11",
        "u01"] ∧
    (Query goLib tieStore [] 0 "timestamp").1.Pairwise
      (fun a b => a.Timestamp ≤ b.Timestamp) ∧
    ¬ ∀ (s : FileStorage) (params : List (String × String)),
        StableForTies (Query goLib s params 0 "timestamp").1
          (s.cache.filter (fun e => decide (∀ kv ∈ params, Satisfies goLib e kv))) := by
  refine ⟨by decide, by decide, fun h => ?_⟩
  have h1 := h tieStore [] 1
  revert h1
  decide

/-- C19 as amended: `Query` with the sort key "timestamp" and a limit that is
not positive returns the matching records in time order, and for every
instant the records of the result at that instant are the matching records
at that instant in some order, which need not be the append order;
`sort.Slice` is taken to meet its contract. -/
theorem C19_ties_rearranged (lib : Lib) (hsort : SortContract lib) (s : FileStorage)
    (params : List (String × String)) (limit : Int) (hl : limit ≤ 0) (t : Int) :
    ((Query lib s params limit "timestamp").1.filter (fun e => decide (e.Timestamp = t))).Perm
      ((s.cache.filter (fun e => decide (∀ kv ∈ params, Satisfies lib e kv))).filter
        (fun e => decide (e.Timestamp = t))) ∧
    (Query lib s params limit "timestamp").1.Pairwise (fun a b => a.Timestamp ≤ b.Timestamp) := by
  rw [Query_fst]
  simp only [if_true]
  rw [if_neg (fun c => absurd c.1 (not_lt.2 hl))]
  exact ⟨(hsort _ _).1.filter _, sorted_of_contract lib hsort _⟩

theorem C19_ties_rearranged_witness :
    ((Query sampleLib sampleStore [] 0 "timestamp").1.filter
        (fun e => decide (e.Timestamp = 1700000000000000000))).Perm
      ((sampleStore.cache.filter (fun e => decide (∀ kv ∈ [], Satisfies sampleLib e kv))).filter
        (fun e => decide (e.Timestamp = 1700000000000000000))) ∧
    (Query sampleLib sampleStore [] 0 "timestamp").1.Pairwise
      (fun a b => a.Timestamp ≤ b.Timestamp) :=
  C19_ties_rearranged sampleLib sampleLib_sortContract sampleStore [] 0 (by decide)
    1700000000000000000

end LogServer
